import Mathlib

/-!
# CoNLL input and output formats (`src/include/linguistics/conll.h`)

A shallow embedding of the token records, the sentence containers and their
stream operators, followed by the properties proved about them.

Conventions of the embedding.

* `std::string` is `Str`, a list of characters.
* `std::vector<T>` is `List T`; `at(i)` is the checked access `vecAt`, which
  raises `std::out_of_range` on a bad index.
* An input stream is `IStream`: the characters not yet read and the two state
  bits the code looks at (`eofbit`, `failbit`).  `is` used as a condition is
  `IStream.ok`, that is `!fail()`.
* An output stream is the text written so far.
* A thrown exception is `Except.error` carrying the message.
* `int` is `Int`; the 32 bit range matters only where text is converted to
  `int`, and is made explicit there (`clampInt`, `IsCInt`).
-/

namespace CoNLL

/-! ## Strings, errors and streams -/

/-- The type `std::string`. -/
abbrev Str := List Char

/-- Modelled from the spec: the macro `ASSERT(cond, msg)` of `utils.h`, which
the header includes but does not define.  A failed assertion raises the format
error carrying `msg`; a successful one does nothing. -/
def ASSERT (cond : Bool) (msg : String) : Except String Unit :=
  if cond then .ok () else .error msg

/-- Modelled from the spec: the constant `DEPENDENCY_LINK_NO_HEAD` of
`dependency.h`, the fixed out-of-range "no head" sentinel (`-1`). -/
def DEPENDENCY_LINK_NO_HEAD : Int := -1

/-- The state of a `std::istream` as far as this code observes it. -/
structure IStream where
  /-- The characters that have not been extracted yet. -/
  buf : Str
  /-- The state bit `eofbit`. -/
  eof : Bool
  /-- The state bit `failbit`. -/
  fail : Bool
deriving DecidableEq, Repr

/-- An `istringstream` freshly constructed on `s`. -/
def IStream.ofStr (s : Str) : IStream := { buf := s, eof := false, fail := false }

/-- The stream used as a condition: `!fail()`. -/
def IStream.ok (is : IStream) : Bool := !is.fail

/-- The test `good()`: no state bit is set. -/
def IStream.good (is : IStream) : Bool := !is.eof && !is.fail

/-- The unformatted input function `std::getline(is, line, delim)`.

When the stream is not `good()` the sentry fails: `failbit` is set and `line`
is left as it was.  Otherwise `line` is erased and characters are moved into it
up to the delimiter, which is extracted and dropped, or up to the end of the
data, which sets `eofbit`; when nothing at all was extracted `failbit` is set
as well. -/
def getline (is : IStream) (line : Str) (delim : Char) : IStream × Str :=
  if is.good then
    let pre := is.buf.takeWhile (fun c => c != delim)
    match is.buf.dropWhile (fun c => c != delim) with
    | [] => ({ buf := [], eof := true, fail := pre.isEmpty }, pre)
    | _ :: rest => ({ buf := rest, eof := false, fail := false }, pre)
  else
    ({ is with fail := true }, line)

/-! ## Conversion between `int` and text -/

/-- The greatest value of `int`. -/
def INT_MAX : Int := 2147483647

/-- The least value of `int`. -/
def INT_MIN : Int := -2147483648

/-- The values of the type `int`. -/
def IsCInt (v : Int) : Prop := INT_MIN ≤ v ∧ v ≤ INT_MAX

instance (v : Int) : Decidable (IsCInt v) := by
  unfold IsCInt; exact inferInstance

/-- What extraction stores when the numeral read is outside `int`. -/
def clampInt (v : Int) : Int :=
  if v < INT_MIN then INT_MIN else if INT_MAX < v then INT_MAX else v

/-- The decimal digit for `d < 10`. -/
def digitChar (d : Nat) : Char :=
  match d with
  | 0 => '0' | 1 => '1' | 2 => '2' | 3 => '3' | 4 => '4'
  | 5 => '5' | 6 => '6' | 7 => '7' | 8 => '8' | _ => '9'

/-- The value of a decimal digit. -/
def digitVal (c : Char) : Nat := c.toNat - 48

/-- Decimal digits of `n`, most significant first, in front of `acc`. -/
def natToStrAux : Nat → Nat → Str → Str
  | 0, _, acc => acc
  | fuel + 1, n, acc =>
    if n < 10 then digitChar n :: acc
    else natToStrAux fuel (n / 10) (digitChar (n % 10) :: acc)

/-- The decimal numeral of a natural number. -/
def natToStr (n : Nat) : Str := natToStrAux (n + 1) n []

/-- The text `os << v` writes for an `int` `v`: its decimal numeral, with a
leading minus sign when negative. -/
def intToStr (v : Int) : Str :=
  if v < 0 then '-' :: natToStr v.natAbs else natToStr v.natAbs

/-- The number a string of decimal digits denotes. -/
def digitsVal (ds : Str) : Nat := ds.foldl (fun acc c => 10 * acc + digitVal c) 0

/-- White space in the classic locale (`std::isspace`). -/
def isspace (c : Char) : Bool :=
  c == ' ' || c == '\t' || c == '\n' || c == '\x0b' || c == '\x0c' || c == '\r'

/-- The formatted extraction `istringstream(s) >> v` for an `int` variable
holding `old`; the result is the value of the variable afterwards.

Leading white space is skipped.  When nothing follows, the sentry fails and
the variable keeps its value.  Otherwise an optional sign and the longest run
of decimal digits are read: without a digit the conversion fails and stores
`0`; a numeral outside `int` stores the nearest bound.  In neither case is
an exception raised: the failure is only recorded in the state of the
temporary string stream, which the code never inspects. -/
def extractInt (s : Str) (old : Int) : Int :=
  match s.dropWhile isspace with
  | [] => old
  | c :: cs =>
    let body := if c == '-' || c == '+' then cs else c :: cs
    let ds := body.takeWhile Char.isDigit
    if ds.isEmpty then 0
    else clampInt (if c == '-' then -(digitsVal ds : Int) else (digitsVal ds : Int))

/-- Modelled from the spec: the helper `lstrip` of `utils.h`, which strips
leading white space. -/
def lstrip (s : Str) : Str := s.dropWhile isspace

/-! ## Token records -/

/-- The class `CCoNLLInputNode`.  It derives from `CDependencyTreeNode` and
declares `word` and `tag` anew; the members of the base class are hidden behind
them and no operation of this header reads them, so they are left out. -/
structure CCoNLLInputNode where
  id : Int
  word : Str
  «lemma» : Str
  ctag : Str
  tag : Str
  feats : Str
deriving DecidableEq, Repr

/-- The class `CCoNLLOutputNode`, which extends `CCoNLLInputNode`; its `head`
likewise hides the one of `CDependencyTreeNode`. -/
structure CCoNLLOutputNode extends CCoNLLInputNode where
  head : Int
  label : Str
  phead : Int
  plabel : Str
deriving DecidableEq, Repr

/-- The default constructor `CCoNLLInputNode()`. -/
def CCoNLLInputNode.default : CCoNLLInputNode :=
  { id := -1, word := [], «lemma» := [], ctag := [], tag := [], feats := [] }

/-- The default constructor `CCoNLLOutputNode()`. -/
def CCoNLLOutputNode.default : CCoNLLOutputNode :=
  { CCoNLLInputNode.default with
    head := DEPENDENCY_LINK_NO_HEAD, label := [],
    phead := DEPENDENCY_LINK_NO_HEAD, plabel := [] }

/-! ## The token codec -/

/-- The extraction `is >> node` for a `CCoNLLInputNode`. -/
def CCoNLLInputNode.extract (is : IStream) (node : CCoNLLInputNode) :
    Except String (IStream × CCoNLLInputNode) := do
  let line : Str := []
  let (is, line) := getline is line '\t'
  ASSERT (is.ok && !line.isEmpty) "Not well formatted CoNLL data (id not found)"
  let node := { node with id := extractInt line node.id }
  let (is, line) := getline is line '\t'
  ASSERT (is.ok && !line.isEmpty) "Not well formatted CoNLL data (word not found);"
  let node := { node with word := line }
  let (is, line) := getline is line '\t'
  ASSERT (is.ok && !line.isEmpty) "Not well formatted CoNLL data (lemma not found)"
  let node := { node with «lemma» := line }
  let (is, line) := getline is line '\t'
  ASSERT (is.ok && !line.isEmpty) "Not well formatted CoNLL data (cpos not found)"
  let node := { node with ctag := line }
  let (is, line) := getline is line '\t'
  ASSERT (is.ok && !line.isEmpty) "Not well formatted CoNLL data (pos not found("
  let node := { node with tag := line }
  let (is, line) := getline is line '\t'
  ASSERT (is.ok && !line.isEmpty) "Not well formatted CoNLL data (features not found)"
  let node := { node with feats := line }
  pure (is, node)

/-- The insertion `os << node` for a `CCoNLLInputNode`. -/
def CCoNLLInputNode.insert (os : Str) (node : CCoNLLInputNode) : Str :=
  os ++ intToStr node.id ++ ['\t'] ++ node.word ++ ['\t'] ++ node.«lemma» ++ ['\t']
    ++ node.ctag ++ ['\t'] ++ node.tag ++ ['\t'] ++ node.feats

/-- The extraction `is >> node` for a `CCoNLLOutputNode`. -/
def CCoNLLOutputNode.extract (is : IStream) (node : CCoNLLOutputNode) :
    Except String (IStream × CCoNLLOutputNode) := do
  let line : Str := []
  let (is, base) ← CCoNLLInputNode.extract is node.toCCoNLLInputNode
  let node := { node with toCCoNLLInputNode := base }
  let (is, line) := getline is line '\t'
  ASSERT (is.ok && !line.isEmpty) "Not well formatted CoNLL data"
  let node := { node with head := extractInt line node.head }
  let (is, line) := getline is line '\t'
  ASSERT (is.ok && !line.isEmpty) "Not well formatted CoNLL data"
  let node := { node with label := line }
  let (is, line) := getline is line '\t'
  ASSERT (is.ok && !line.isEmpty) "Not well formatted CoNLL data"
  let node :=
    if line == ['_'] then { node with phead := DEPENDENCY_LINK_NO_HEAD }
    else { node with phead := extractInt line node.phead }
  let (is, line) := getline is line '\t'
  ASSERT (is.ok && !line.isEmpty) "Not well formatted CoNLL data"
  let node := { node with plabel := line }
  pure (is, node)

/-- The insertion `os << node` for a `CCoNLLOutputNode`. -/
def CCoNLLOutputNode.insert (os : Str) (node : CCoNLLOutputNode) : Str :=
  let oss : Str := if node.phead == DEPENDENCY_LINK_NO_HEAD then ['_'] else intToStr node.phead
  CCoNLLInputNode.insert os node.toCCoNLLInputNode ++ ['\t'] ++ intToStr node.head ++ ['\t']
    ++ node.label ++ ['\t'] ++ oss ++ ['\t'] ++ node.plabel

/-! ## Vectors and counted loops -/

/-- The checked access `v.at(i)`, raising `std::out_of_range`. -/
def vecAt {α : Type} (v : List α) (i : Nat) : Except String α :=
  match v[i]? with
  | some x => .ok x
  | none => .error "std::out_of_range"

/-- The call `v.resize(n)`: the first `n` elements are kept and missing ones
are default constructed. -/
def vecResize {α : Type} (v : List α) (n : Nat) (dflt : α) : List α :=
  v.take n ++ List.replicate (n - v.length) dflt

/-- The loop `for (int i = start; ...; ++i) body` run for `count` rounds; an
exception raised by the body leaves the loop. -/
def forLoop {σ : Type} (body : Nat → σ → Except String σ) : Nat → Nat → σ → Except String σ
  | 0, _, s => .ok s
  | count + 1, i, s => do
    let s ← body i s
    forLoop body count (i + 1) s

/-! ## Sentence containers -/

/-- Modelled from the spec: the node type `CDependencyTreeNode` of
`dependency.h`, a (word, tag, head) triple. -/
structure CDependencyTreeNode where
  word : Str
  tag : Str
  head : Int
deriving DecidableEq, Repr

/-- Modelled from the spec: the type `CDependencyTree` of `dependency.h`, an
ordered sequence of nodes. -/
abbrev CDependencyTree := List CDependencyTreeNode

/-- The class `CCoNLLInput`, a vector of input nodes. -/
abbrev CCoNLLInput := List CCoNLLInputNode

/-- The class `CCoNLLOutput`, a vector of output nodes. -/
abbrev CCoNLLOutput := List CCoNLLOutputNode

/-- The root placeholder pushed by `CCoNLLInput::clear`. -/
def CCoNLLInput.root : CCoNLLInputNode :=
  { id := 0, word := [], «lemma» := [], ctag := "-BEGIN-".toList, tag := "-BEGIN-".toList,
    feats := [] }

/-- The method `CCoNLLInput::clear`. -/
def CCoNLLInput.clear (_self : CCoNLLInput) : CCoNLLInput :=
  ([] : CCoNLLInput) ++ [CCoNLLInput.root]

/-- The constructor `CCoNLLInput()`, which calls `clear` on the empty vector. -/
def CCoNLLInput.new : CCoNLLInput := CCoNLLInput.clear []

/-- The root placeholder pushed by `CCoNLLOutput::clear`. -/
def CCoNLLOutput.root : CCoNLLOutputNode :=
  { id := 0, word := [], «lemma» := [], ctag := "-BEGIN-".toList, tag := "-BEGIN-".toList,
    feats := [], head := DEPENDENCY_LINK_NO_HEAD, label := [],
    phead := DEPENDENCY_LINK_NO_HEAD, plabel := [] }

/-- The method `CCoNLLOutput::clear`. -/
def CCoNLLOutput.clear (_self : CCoNLLOutput) : CCoNLLOutput :=
  ([] : CCoNLLOutput) ++ [CCoNLLOutput.root]

/-- The constructor `CCoNLLOutput()`, which calls `clear` on the empty vector. -/
def CCoNLLOutput.new : CCoNLLOutput := CCoNLLOutput.clear []

/-- The method `CCoNLLOutput::fromCoNLLInput`. -/
def CCoNLLOutput.fromCoNLLInput (self : CCoNLLOutput) (input : CCoNLLInput) :
    Except String CCoNLLOutput :=
  let self := vecResize self input.length CCoNLLOutputNode.default
  forLoop (fun i (self : CCoNLLOutput) => do
      let src ← vecAt input i
      let dst ← vecAt self i
      pure (self.set i { dst with toCCoNLLInputNode := src }))
    (input.length - 0) 0 self

/-- The method `CCoNLLOutput::copyDependencyHeads`. -/
def CCoNLLOutput.copyDependencyHeads (self : CCoNLLOutput) (input : CDependencyTree) :
    Except String CCoNLLOutput :=
  forLoop (fun i (self : CCoNLLOutput) => do
      let src ← vecAt input i
      let dst ← vecAt self i
      pure (self.set i { dst with head := src.head }))
    (input.length - 0) 0 self

/-- The method `CCoNLLOutput::toDependencyTree`; the result is the value of the
reference parameter `out` afterwards. -/
def CCoNLLOutput.toDependencyTree (self : CCoNLLOutput) (_out : CDependencyTree) :
    Except String CDependencyTree :=
  let out : CDependencyTree := []
  forLoop (fun i (out : CDependencyTree) => do
      let w ← vecAt self i
      let t ← vecAt self i
      let h ← vecAt self i
      pure (out ++ [{ word := w.word, tag := t.tag, head := h.head }]))
    (self.length - 0) 0 out

/-! ## Sentence readers and writers -/

/-- The `while` loop of the sentence reader for `CCoNLLInput`, entered with the
line just read.  The first argument bounds the number of rounds. -/
def CCoNLLInput.extractLoop :
    Nat → IStream → Str → CCoNLLInput → Except String (IStream × CCoNLLInput)
  | 0, _, _, _ => .error "loop bound exceeded"
  | fuel + 1, is, line, sent =>
    if is.ok && !(lstrip line).isEmpty then do
      let node := CCoNLLInputNode.default
      let iss := IStream.ofStr line
      let (_, node) ← CCoNLLInputNode.extract iss node
      let sent := sent ++ [node]
      let (is, line) := getline is line '\n'
      CCoNLLInput.extractLoop fuel is line sent
    else
      pure (is, sent)

/-- The extraction `is >> sent` for a `CCoNLLInput`.  Every round of the loop
but the last two consumes a character, which bounds the number of rounds. -/
def CCoNLLInput.extract (is : IStream) (sent : CCoNLLInput) :
    Except String (IStream × CCoNLLInput) :=
  let sent := CCoNLLInput.clear sent
  let line : Str := []
  let (is, line) := getline is line '\n'
  CCoNLLInput.extractLoop (is.buf.length + 3) is line sent

/-- The insertion `os << sent` for a `CCoNLLInput`. -/
def CCoNLLInput.insert (os : Str) (sent : CCoNLLInput) : Except String Str := do
  let os ← forLoop (fun i (os : Str) => do
      let node ← vecAt sent i
      pure (CCoNLLInputNode.insert os node ++ ['\n']))
    (sent.length - 1) 1 os
  pure (os ++ ['\n'])

/-- The `while` loop of the sentence reader for `CCoNLLOutput`, entered with
the line just read.  The first argument bounds the number of rounds. -/
def CCoNLLOutput.extractLoop :
    Nat → IStream → Str → CCoNLLOutput → Except String (IStream × CCoNLLOutput)
  | 0, _, _, _ => .error "loop bound exceeded"
  | fuel + 1, is, line, sent =>
    if is.ok && !line.isEmpty then do
      let node := CCoNLLOutputNode.default
      let iss := IStream.ofStr line
      let (_, node) ← CCoNLLOutputNode.extract iss node
      let sent := sent ++ [node]
      let (is, line) := getline is line '\n'
      CCoNLLOutput.extractLoop fuel is line sent
    else
      pure (is, sent)

/-- The extraction `is >> sent` for a `CCoNLLOutput`.  Every round of the loop
but the last two consumes a character, which bounds the number of rounds. -/
def CCoNLLOutput.extract (is : IStream) (sent : CCoNLLOutput) :
    Except String (IStream × CCoNLLOutput) :=
  let sent := CCoNLLOutput.clear sent
  let line : Str := []
  let (is, line) := getline is line '\n'
  CCoNLLOutput.extractLoop (is.buf.length + 3) is line sent

/-- The insertion `os << sent` for a `CCoNLLOutput`. -/
def CCoNLLOutput.insert (os : Str) (sent : CCoNLLOutput) : Except String Str := do
  let os ← forLoop (fun i (os : Str) => do
      let node ← vecAt sent i
      pure (CCoNLLOutputNode.insert os node ++ ['\n']))
    (sent.length - 1) 1 os
  pure (os ++ ['\n'])

/-! ## Vocabulary of the properties -/

/-- A character of a decimal numeral: a digit or the minus sign. -/
def isNumeralChar (c : Char) : Bool := c.isDigit || c == '-'

/-- The pending fields of a stream: the tab-separated fields of the unread
text of a good stream, none for a stream that is not good. -/
def IStream.fields (is : IStream) : List Str :=
  if is.good then is.buf.splitOn '\t' else []

/-- The six column texts the input encoder writes, in order. -/
def CCoNLLInputNode.columns (node : CCoNLLInputNode) : List Str :=
  [intToStr node.id, node.word, node.«lemma», node.ctag, node.tag, node.feats]

/-- The text of the `PHEAD` column: an underscore for the sentinel, the
decimal numeral otherwise. -/
def pheadText (phead : Int) : Str :=
  if phead = DEPENDENCY_LINK_NO_HEAD then ['_'] else intToStr phead

/-- The ten column texts the output encoder writes, in order. -/
def CCoNLLOutputNode.columns (node : CCoNLLOutputNode) : List Str :=
  node.toCCoNLLInputNode.columns
    ++ [intToStr node.head, node.label, pheadText node.phead, node.plabel]

/-- A string that can stand in a column: not empty, without tab or newline. -/
def ValidField (s : Str) : Prop := s ≠ [] ∧ '\t' ∉ s ∧ '\n' ∉ s

instance (s : Str) : Decidable (ValidField s) := by
  unfold ValidField; exact inferInstance

/-- The string fields of an input token can stand in columns. -/
def CCoNLLInputNode.ValidText (node : CCoNLLInputNode) : Prop :=
  ValidField node.word ∧ ValidField node.«lemma» ∧ ValidField node.ctag
    ∧ ValidField node.tag ∧ ValidField node.feats

instance (node : CCoNLLInputNode) : Decidable node.ValidText := by
  unfold CCoNLLInputNode.ValidText; exact inferInstance

/-- The string fields of an output token can stand in columns. -/
def CCoNLLOutputNode.ValidText (node : CCoNLLOutputNode) : Prop :=
  node.toCCoNLLInputNode.ValidText ∧ ValidField node.label ∧ ValidField node.plabel

instance (node : CCoNLLOutputNode) : Decidable node.ValidText := by
  unfold CCoNLLOutputNode.ValidText; exact inferInstance

/-- The integer fields of an output token are values of the type `int`. -/
def CCoNLLOutputNode.IntFields (node : CCoNLLOutputNode) : Prop :=
  IsCInt node.id ∧ IsCInt node.head ∧ IsCInt node.phead

instance (node : CCoNLLOutputNode) : Decidable node.IntFields := by
  unfold CCoNLLOutputNode.IntFields; exact inferInstance

/-- The lines the input sentence writer emits for a list of tokens, each
with its newline. -/
def CCoNLLInput.linesOf (tokens : List CCoNLLInputNode) : Str :=
  (tokens.map (fun node => CCoNLLInputNode.insert [] node ++ ['\n'])).flatten

/-- The lines the output sentence writer emits for a list of tokens, each
with its newline. -/
def CCoNLLOutput.linesOf (tokens : List CCoNLLOutputNode) : Str :=
  (tokens.map (fun node => CCoNLLOutputNode.insert [] node ++ ['\n'])).flatten

/-- The string fields of an input token contain no tab. -/
def CCoNLLInputNode.TabFree (node : CCoNLLInputNode) : Prop :=
  '\t' ∉ node.word ∧ '\t' ∉ node.«lemma» ∧ '\t' ∉ node.ctag ∧ '\t' ∉ node.tag
    ∧ '\t' ∉ node.feats

instance (node : CCoNLLInputNode) : Decidable node.TabFree := by
  unfold CCoNLLInputNode.TabFree; exact inferInstance

/-- The string fields of an output token contain no tab. -/
def CCoNLLOutputNode.TabFree (node : CCoNLLOutputNode) : Prop :=
  node.toCCoNLLInputNode.TabFree ∧ '\t' ∉ node.label ∧ '\t' ∉ node.plabel

instance (node : CCoNLLOutputNode) : Decidable node.TabFree := by
  unfold CCoNLLOutputNode.TabFree; exact inferInstance

/-- The string fields of an input token contain no newline. -/
def CCoNLLInputNode.NewlineFree (node : CCoNLLInputNode) : Prop :=
  '\n' ∉ node.word ∧ '\n' ∉ node.«lemma» ∧ '\n' ∉ node.ctag ∧ '\n' ∉ node.tag
    ∧ '\n' ∉ node.feats

instance (node : CCoNLLInputNode) : Decidable node.NewlineFree := by
  unfold CCoNLLInputNode.NewlineFree; exact inferInstance

/-- The string fields of an output token contain no newline. -/
def CCoNLLOutputNode.NewlineFree (node : CCoNLLOutputNode) : Prop :=
  node.toCCoNLLInputNode.NewlineFree ∧ '\n' ∉ node.label ∧ '\n' ∉ node.plabel

instance (node : CCoNLLOutputNode) : Decidable node.NewlineFree := by
  unfold CCoNLLOutputNode.NewlineFree; exact inferInstance

/-- The conversion sequence of the fidelity property: a fresh output sentence
takes the input sentence, then the heads of the tree, and is converted to a
tree stored over `out`. -/
def convertThrough (input : CCoNLLInput) (tree out : CDependencyTree) :
    Except String CDependencyTree := do
  let sent := CCoNLLOutput.new
  let sent ← CCoNLLOutput.fromCoNLLInput sent input
  let sent ← CCoNLLOutput.copyDependencyHeads sent tree
  CCoNLLOutput.toDependencyTree sent out

/-- A bound on the rounds a reader loop can still make on a stream: none once
`failbit` is set, one once `eofbit` is set, and otherwise one per unread
character and two more. -/
def IStream.rounds (is : IStream) : Nat :=
  if is.fail then 0 else if is.eof then 1 else is.buf.length + 2

/-- The output token decoder, run as the sentence reader runs it on a line
with a default constructed node, yields `node`. -/
def CCoNLLOutput.DecodesTo (line : Str) (node : CCoNLLOutputNode) : Prop :=
  ∃ is1, CCoNLLOutputNode.extract (IStream.ofStr line) CCoNLLOutputNode.default
    = .ok (is1, node)

/-- The input token decoder, run as the sentence reader runs it on a line with
a default constructed node, yields `node`. -/
def CCoNLLInput.DecodesTo (line : Str) (node : CCoNLLInputNode) : Prop :=
  ∃ is1, CCoNLLInputNode.extract (IStream.ofStr line) CCoNLLInputNode.default
    = .ok (is1, node)

/-- The text of a stream that holds the given lines, each ended by a
newline. -/
def textOfLines (lines : List Str) : Str :=
  (lines.map (fun l => l ++ ['\n'])).flatten

/-- The integer the decoders read from the id column of a line: the extraction
from the first tab-separated column into a variable holding `-1`. -/
def idOfLine (line : Str) : Int :=
  extractInt ((line.splitOn '\t').headD []) (-1)

/-! # Properties -/

/-! ## Decimal numerals -/

theorem isDigit_digitChar (d : Nat) : (digitChar d).isDigit = true := by
  unfold digitChar
  split <;> decide

theorem digitVal_digitChar (d : Nat) (h : d < 10) : digitVal (digitChar d) = d := by
  interval_cases d <;> rfl

theorem isDigit_natToStrAux (fuel n : Nat) (acc : Str)
    (hacc : ∀ c ∈ acc, c.isDigit = true) :
    ∀ c ∈ natToStrAux fuel n acc, c.isDigit = true := by
  induction fuel generalizing n acc with
  | zero => simpa [natToStrAux] using hacc
  | succ fuel ih =>
    unfold natToStrAux
    split
    · intro c hc
      rcases List.mem_cons.1 hc with rfl | hc
      · exact isDigit_digitChar n
      · exact hacc c hc
    · apply ih
      intro c hc
      rcases List.mem_cons.1 hc with rfl | hc
      · exact isDigit_digitChar _
      · exact hacc c hc

theorem natToStrAux_ne_nil (fuel n : Nat) (acc : Str) (h : acc ≠ [] ∨ 0 < fuel) :
    natToStrAux fuel n acc ≠ [] := by
  induction fuel generalizing n acc with
  | zero =>
    rcases h with h | h
    · simpa [natToStrAux] using h
    · omega
  | succ fuel ih =>
    unfold natToStrAux
    split
    · simp
    · exact ih _ _ (Or.inl (by simp))

theorem foldl_digits (ds : Str) (a : Nat) :
    ds.foldl (fun acc c => 10 * acc + digitVal c) a = a * 10 ^ ds.length + digitsVal ds := by
  induction ds generalizing a with
  | nil => simp [digitsVal]
  | cons c cs ih =>
    simp only [List.foldl_cons, digitsVal, List.length_cons]
    rw [ih, ih (10 * 0 + digitVal c)]
    ring

theorem digitsVal_cons (c : Char) (cs : Str) :
    digitsVal (c :: cs) = digitVal c * 10 ^ cs.length + digitsVal cs := by
  have := foldl_digits cs (10 * 0 + digitVal c)
  simpa [digitsVal] using this

theorem digitsVal_natToStrAux (fuel n : Nat) (acc : Str) (h : n < fuel) :
    digitsVal (natToStrAux fuel n acc) = n * 10 ^ acc.length + digitsVal acc := by
  induction fuel generalizing n acc with
  | zero => omega
  | succ fuel ih =>
    unfold natToStrAux
    split
    · next hlt => rw [digitsVal_cons, digitVal_digitChar n hlt]
    · next hge =>
      have h10 : n / 10 < fuel := by omega
      rw [ih _ _ h10, digitsVal_cons, digitVal_digitChar _ (Nat.mod_lt _ (by norm_num))]
      simp only [List.length_cons, pow_succ]
      have e : n * 10 ^ acc.length = (10 * (n / 10) + n % 10) * 10 ^ acc.length := by
        rw [Nat.div_add_mod n 10]
      rw [e]
      ring

theorem isDigit_natToStr (n : Nat) : ∀ c ∈ natToStr n, c.isDigit = true :=
  isDigit_natToStrAux _ _ _ (by simp)

theorem natToStr_ne_nil (n : Nat) : natToStr n ≠ [] :=
  natToStrAux_ne_nil _ _ _ (Or.inr (Nat.succ_pos n))

theorem digitsVal_natToStr (n : Nat) : digitsVal (natToStr n) = n := by
  have := digitsVal_natToStrAux (n + 1) n [] (Nat.lt_succ_self n)
  simpa [natToStr, digitsVal] using this

theorem isNumeralChar_intToStr (v : Int) : ∀ c ∈ intToStr v, isNumeralChar c = true := by
  intro c hc
  unfold intToStr at hc
  split at hc
  · rcases List.mem_cons.1 hc with rfl | hc
    · decide
    · simp [isNumeralChar, isDigit_natToStr _ c hc]
  · simp [isNumeralChar, isDigit_natToStr _ c hc]

theorem intToStr_ne_nil (v : Int) : intToStr v ≠ [] := by
  unfold intToStr
  split
  · simp
  · exact natToStr_ne_nil _

theorem isDigit_not_isspace (c : Char) (h : c.isDigit = true) : isspace c = false := by
  cases hs : isspace c with
  | false => rfl
  | true =>
    simp only [isspace, Bool.or_eq_true, beq_iff_eq] at hs
    rcases hs with ((((rfl | rfl) | rfl) | rfl) | rfl) | rfl <;> simp at h

theorem isNumeralChar_not_isspace (c : Char) (h : isNumeralChar c = true) :
    isspace c = false := by
  simp only [isNumeralChar, Bool.or_eq_true, beq_iff_eq] at h
  rcases h with h | rfl
  · exact isDigit_not_isspace c h
  · decide

theorem isNumeralChar_ne (c d : Char) (h : isNumeralChar c = true)
    (hd : isNumeralChar d = false) : c ≠ d := by
  rintro rfl
  rw [h] at hd
  exact Bool.noConfusion hd

theorem takeWhile_isDigit_natToStr (n : Nat) :
    (natToStr n).takeWhile Char.isDigit = natToStr n :=
  List.takeWhile_eq_self_iff.2 (isDigit_natToStr n)

theorem clampInt_of_isCInt (v : Int) (h : IsCInt v) : clampInt v = v := by
  unfold IsCInt at h
  unfold clampInt
  rw [if_neg (by omega), if_neg (by omega)]

/-- Reading back a written `int` gives the `int`. -/
theorem extractInt_intToStr (v old : Int) (h : IsCInt v) :
    extractInt (intToStr v) old = v := by
  unfold intToStr
  split
  · next hneg =>
    have hds := takeWhile_isDigit_natToStr v.natAbs
    have hne := natToStr_ne_nil v.natAbs
    have hval : -((digitsVal (natToStr v.natAbs) : Nat) : Int) = v := by
      rw [digitsVal_natToStr]; omega
    simp only [extractInt, List.dropWhile, show isspace '-' = false from by decide,
      show (('-' : Char) == '-') = true from by decide, Bool.true_or, if_true, hds,
      List.isEmpty_iff, hne, if_false, hval]
    exact clampInt_of_isCInt v h
  · next hpos =>
    have hne := natToStr_ne_nil v.natAbs
    have hdig := isDigit_natToStr v.natAbs
    have hds := takeWhile_isDigit_natToStr v.natAbs
    have hval : ((digitsVal (natToStr v.natAbs) : Nat) : Int) = v := by
      rw [digitsVal_natToStr]; omega
    cases hs : natToStr v.natAbs with
    | nil => exact absurd hs hne
    | cons c cs =>
      rw [hs] at hdig hds hval
      have hc : c.isDigit = true := hdig c (List.mem_cons_self _ _)
      have hsp : isspace c = false := isDigit_not_isspace c hc
      have hm : (c == '-') = false := by
        apply beq_false_of_ne
        rintro rfl
        revert hc; decide
      have hp : (c == '+') = false := by
        apply beq_false_of_ne
        rintro rfl
        revert hc; decide
      simp only [extractInt, List.dropWhile, hsp, hm, hp, Bool.or_self, hds,
        List.isEmpty_cons, if_false, hval, Bool.false_eq_true]
      exact clampInt_of_isCInt v h

theorem tab_not_mem_intToStr (v : Int) : '\t' ∉ intToStr v := fun h =>
  isNumeralChar_ne _ '\t' (isNumeralChar_intToStr v _ h) (by decide) rfl

theorem newline_not_mem_intToStr (v : Int) : '\n' ∉ intToStr v := fun h =>
  isNumeralChar_ne _ '\n' (isNumeralChar_intToStr v _ h) (by decide) rfl

theorem intToStr_ne_underscore (v : Int) : intToStr v ≠ ['_'] := by
  intro h
  have : '_' ∈ intToStr v := by rw [h]; exact List.mem_cons_self _ _
  exact isNumeralChar_ne _ '_' (isNumeralChar_intToStr v _ this) (by decide) rfl

theorem lstrip_intToStr_append (v : Int) (rest : Str) :
    lstrip (intToStr v ++ rest) ≠ [] := by
  cases hs : intToStr v with
  | nil => exact absurd hs (intToStr_ne_nil v)
  | cons c cs =>
    have hc : isspace c = false :=
      isNumeralChar_not_isspace c (isNumeralChar_intToStr v c (by rw [hs]; exact List.mem_cons_self _ _))
    simp [lstrip, List.dropWhile, hc]

/-! ## Stepping `getline` -/

theorem takeWhile_ne_delim (delim : Char) (pre rest : Str) (h : delim ∉ pre) :
    (pre ++ delim :: rest).takeWhile (fun c => c != delim) = pre := by
  induction pre with
  | nil => simp
  | cons c cs ih =>
    have hc : c ≠ delim := fun e => h (e ▸ List.mem_cons_self _ _)
    have hcs : delim ∉ cs := fun e => h (List.mem_cons_of_mem _ e)
    simp [List.takeWhile_cons, hc, ih hcs]

theorem dropWhile_ne_delim (delim : Char) (pre rest : Str) (h : delim ∉ pre) :
    (pre ++ delim :: rest).dropWhile (fun c => c != delim) = delim :: rest := by
  induction pre with
  | nil => simp
  | cons c cs ih =>
    have hc : c ≠ delim := fun e => h (e ▸ List.mem_cons_self _ _)
    have hcs : delim ∉ cs := fun e => h (List.mem_cons_of_mem _ e)
    simp [List.dropWhile_cons, hc, ih hcs]

/-- A line in front of its delimiter is read whole, the delimiter is dropped
and the stream stays good. -/
theorem getline_delim (delim : Char) (pre rest line : Str) (h : delim ∉ pre) :
    getline { buf := pre ++ delim :: rest, eof := false, fail := false } line delim
      = ({ buf := rest, eof := false, fail := false }, pre) := by
  simp [getline, IStream.good, takeWhile_ne_delim delim pre rest h,
    dropWhile_ne_delim delim pre rest h]

theorem splitOn_cases (delim : Char) (l : Str) :
    l.splitOn delim =
      match l.dropWhile (fun c => c != delim) with
      | [] => [l.takeWhile (fun c => c != delim)]
      | _ :: rest => l.takeWhile (fun c => c != delim) :: rest.splitOn delim := by
  induction l with
  | nil => simp [List.splitOn]
  | cons c cs ih =>
    simp only [List.splitOn] at ih ⊢
    rw [List.splitOnP_cons]
    by_cases hc : c = delim
    · subst hc
      simp [List.takeWhile_cons, List.dropWhile_cons]
    · have hb : (c == delim) = false := beq_false_of_ne hc
      rw [ih]
      simp only [List.takeWhile_cons, List.dropWhile_cons, hb, bne, Bool.not_false,
        Bool.false_eq_true, if_false, if_true]
      cases hd : List.dropWhile (fun c => !(c == delim)) cs <;> simp [List.modifyHead]

theorem fields_of_not_good (is : IStream) (h : is.good = false) : is.fields = [] := by
  simp [IStream.fields, h]

/-- Reading a field when one is pending: the field is delivered, the pending
fields shrink by one, and the assertion after the call holds exactly when the
field is not empty. -/
theorem getline_fields_cons (is : IStream) (line f : Str) (fs : List Str)
    (h : is.fields = f :: fs) :
    ∃ is1, getline is line '\t' = (is1, f) ∧ is1.fields = fs
      ∧ (f ≠ [] → is1.ok = true) := by
  have hg : is.good = true := by
    cases hg : is.good with
    | true => rfl
    | false => rw [fields_of_not_good is hg] at h; exact absurd h (by simp)
  simp only [IStream.fields, hg, if_true] at h
  rw [splitOn_cases] at h
  unfold getline
  simp only [hg, if_true]
  cases hd : is.buf.dropWhile (fun c => c != '\t') with
  | nil =>
    rw [hd] at h
    simp only [List.cons.injEq] at h
    obtain ⟨h1, h2⟩ := h
    refine ⟨_, by rw [h1], ?_, ?_⟩
    · simp [IStream.fields, IStream.good, ← h2]
    · intro hf
      simp [IStream.ok, h1, hf]
  | cons c rest =>
    rw [hd] at h
    simp only [List.cons.injEq] at h
    obtain ⟨h1, h2⟩ := h
    refine ⟨_, by rw [h1], ?_, ?_⟩
    · simp [IStream.fields, IStream.good, h2]
    · simp [IStream.ok]

/-- Reading a field when none is pending fails. -/
theorem getline_fields_nil (is : IStream) (line : Str) (h : is.fields = []) :
    ∃ is1 l1, getline is line '\t' = (is1, l1) ∧ is1.ok = false ∧ is1.fields = [] := by
  have hg : is.good = false := by
    cases hg : is.good with
    | false => rfl
    | true =>
      simp only [IStream.fields, hg, if_true] at h
      exact absurd h (List.splitOnP_ne_nil _ _)
  refine ⟨_, _, by simp [getline, hg]; exact ⟨rfl, rfl⟩, by simp [IStream.ok], ?_⟩
  apply fields_of_not_good
  simp [IStream.good]

theorem fields_ofStr (line : Str) : (IStream.ofStr line).fields = line.splitOn '\t' := by
  simp [IStream.fields, IStream.good, IStream.ofStr]

theorem ASSERT_true (msg : String) : ASSERT true msg = .ok () := rfl

theorem ASSERT_false (msg : String) : ASSERT false msg = .error msg := rfl

theorem isEmpty_of_ne_nil {f : Str} (h : f ≠ []) : f.isEmpty = false := by
  cases f with
  | nil => exact absurd rfl h
  | cons c cs => rfl

/-- The input decoder on a stream with six non-empty pending fields: it
succeeds, stores the fields and leaves the remaining ones pending. -/
theorem inputNode_extract_ok (is : IStream) (node : CCoNLLInputNode)
    (f0 f1 f2 f3 f4 f5 : Str) (rest : List Str)
    (h : is.fields = f0 :: f1 :: f2 :: f3 :: f4 :: f5 :: rest)
    (h0 : f0 ≠ []) (h1 : f1 ≠ []) (h2 : f2 ≠ []) (h3 : f3 ≠ []) (h4 : f4 ≠ [])
    (h5 : f5 ≠ []) :
    ∃ is1, CCoNLLInputNode.extract is node
        = .ok (is1, { id := extractInt f0 node.id, word := f1, «lemma» := f2, ctag := f3,
                      tag := f4, feats := f5 })
      ∧ is1.fields = rest := by
  obtain ⟨s0, g0, e0, a0⟩ := getline_fields_cons is [] f0 _ h
  obtain ⟨s1, g1, e1, a1⟩ := getline_fields_cons s0 f0 f1 _ e0
  obtain ⟨s2, g2, e2, a2⟩ := getline_fields_cons s1 f1 f2 _ e1
  obtain ⟨s3, g3, e3, a3⟩ := getline_fields_cons s2 f2 f3 _ e2
  obtain ⟨s4, g4, e4, a4⟩ := getline_fields_cons s3 f3 f4 _ e3
  obtain ⟨s5, g5, e5, a5⟩ := getline_fields_cons s4 f4 f5 _ e4
  refine ⟨s5, ?_, e5⟩
  simp only [CCoNLLInputNode.extract, g0, g1, g2, g3, g4, g5, a0 h0, a1 h1, a2 h2, a3 h3,
    a4 h4, a5 h5, isEmpty_of_ne_nil h0, isEmpty_of_ne_nil h1, isEmpty_of_ne_nil h2,
    isEmpty_of_ne_nil h3, isEmpty_of_ne_nil h4, isEmpty_of_ne_nil h5, Bool.not_false,
    Bool.and_self, ASSERT_true, bind, Except.bind, pure, Except.pure]

/-- The input decoder succeeds only on a stream with six non-empty pending
fields. -/
theorem inputNode_extract_inv (is : IStream) (node : CCoNLLInputNode)
    (r : IStream × CCoNLLInputNode) (h : CCoNLLInputNode.extract is node = .ok r) :
    ∃ f0 f1 f2 f3 f4 f5 rest, is.fields = f0 :: f1 :: f2 :: f3 :: f4 :: f5 :: rest
      ∧ f0 ≠ [] ∧ f1 ≠ [] ∧ f2 ≠ [] ∧ f3 ≠ [] ∧ f4 ≠ [] ∧ f5 ≠ [] := by
  unfold CCoNLLInputNode.extract at h
  rcases hF : is.fields with _ | ⟨f0, r0⟩
  · obtain ⟨s, l, g, a, -⟩ := getline_fields_nil is [] hF
    simp [g, a, ASSERT, bind, Except.bind] at h
  obtain ⟨s0, g0, e0, a0⟩ := getline_fields_cons is [] f0 _ hF
  by_cases h0 : f0 = []
  · simp [g0, h0, ASSERT, bind, Except.bind] at h
  simp only [g0, a0 h0, isEmpty_of_ne_nil h0, Bool.not_false, Bool.and_self,
    ASSERT_true, bind, Except.bind] at h
  rcases hF1 : r0 with _ | ⟨f1, r1⟩
  · obtain ⟨s, l, g, a, -⟩ := getline_fields_nil s0 f0 (hF1 ▸ e0)
    simp [g, a, ASSERT, bind, Except.bind] at h
  obtain ⟨s1, g1, e1, a1⟩ := getline_fields_cons s0 f0 f1 _ (hF1 ▸ e0)
  by_cases h1 : f1 = []
  · simp [g1, h1, ASSERT, bind, Except.bind] at h
  simp only [g1, a1 h1, isEmpty_of_ne_nil h1, Bool.not_false, Bool.and_self,
    ASSERT_true, bind, Except.bind] at h
  rcases hF2 : r1 with _ | ⟨f2, r2⟩
  · obtain ⟨s, l, g, a, -⟩ := getline_fields_nil s1 f1 (hF2 ▸ e1)
    simp [g, a, ASSERT, bind, Except.bind] at h
  obtain ⟨s2, g2, e2, a2⟩ := getline_fields_cons s1 f1 f2 _ (hF2 ▸ e1)
  by_cases h2 : f2 = []
  · simp [g2, h2, ASSERT, bind, Except.bind] at h
  simp only [g2, a2 h2, isEmpty_of_ne_nil h2, Bool.not_false, Bool.and_self,
    ASSERT_true, bind, Except.bind] at h
  rcases hF3 : r2 with _ | ⟨f3, r3⟩
  · obtain ⟨s, l, g, a, -⟩ := getline_fields_nil s2 f2 (hF3 ▸ e2)
    simp [g, a, ASSERT, bind, Except.bind] at h
  obtain ⟨s3, g3, e3, a3⟩ := getline_fields_cons s2 f2 f3 _ (hF3 ▸ e2)
  by_cases h3 : f3 = []
  · simp [g3, h3, ASSERT, bind, Except.bind] at h
  simp only [g3, a3 h3, isEmpty_of_ne_nil h3, Bool.not_false, Bool.and_self,
    ASSERT_true, bind, Except.bind] at h
  rcases hF4 : r3 with _ | ⟨f4, r4⟩
  · obtain ⟨s, l, g, a, -⟩ := getline_fields_nil s3 f3 (hF4 ▸ e3)
    simp [g, a, ASSERT, bind, Except.bind] at h
  obtain ⟨s4, g4, e4, a4⟩ := getline_fields_cons s3 f3 f4 _ (hF4 ▸ e3)
  by_cases h4 : f4 = []
  · simp [g4, h4, ASSERT, bind, Except.bind] at h
  simp only [g4, a4 h4, isEmpty_of_ne_nil h4, Bool.not_false, Bool.and_self,
    ASSERT_true, bind, Except.bind] at h
  rcases hF5 : r4 with _ | ⟨f5, r5⟩
  · obtain ⟨s, l, g, a, -⟩ := getline_fields_nil s4 f4 (hF5 ▸ e4)
    simp [g, a, ASSERT, bind, Except.bind] at h
  by_cases h5 : f5 = []
  · obtain ⟨s5, g5, e5, a5⟩ := getline_fields_cons s4 f4 f5 _ (hF5 ▸ e4)
    simp [g5, h5, ASSERT, bind, Except.bind] at h
  subst hF1 hF2 hF3 hF4 hF5
  exact ⟨f0, f1, f2, f3, f4, f5, r5, rfl, h0, h1, h2, h3, h4, h5⟩



/-- The output decoder on a stream with ten non-empty pending fields: it
succeeds, stores the fields and leaves the remaining ones pending. -/
theorem outputNode_extract_ok (is : IStream) (node : CCoNLLOutputNode)
    (f0 f1 f2 f3 f4 f5 f6 f7 f8 f9 : Str) (rest : List Str)
    (h : is.fields = f0 :: f1 :: f2 :: f3 :: f4 :: f5 :: f6 :: f7 :: f8 :: f9 :: rest)
    (h0 : f0 ≠ []) (h1 : f1 ≠ []) (h2 : f2 ≠ []) (h3 : f3 ≠ []) (h4 : f4 ≠ [])
    (h5 : f5 ≠ []) (h6 : f6 ≠ []) (h7 : f7 ≠ []) (h8 : f8 ≠ []) (h9 : f9 ≠ []) :
    ∃ is1, CCoNLLOutputNode.extract is node
        = .ok (is1, { id := extractInt f0 node.id, word := f1, «lemma» := f2, ctag := f3,
                      tag := f4, feats := f5, head := extractInt f6 node.head, label := f7,
                      phead := if f8 = ['_'] then DEPENDENCY_LINK_NO_HEAD
                               else extractInt f8 node.phead,
                      plabel := f9 })
      ∧ is1.fields = rest := by
  obtain ⟨s5, g5, e5⟩ :=
    inputNode_extract_ok is node.toCCoNLLInputNode f0 f1 f2 f3 f4 f5 _ h h0 h1 h2 h3 h4 h5
  obtain ⟨s6, g6, e6, a6⟩ := getline_fields_cons s5 [] f6 _ e5
  obtain ⟨s7, g7, e7, a7⟩ := getline_fields_cons s6 f6 f7 _ e6
  obtain ⟨s8, g8, e8, a8⟩ := getline_fields_cons s7 f7 f8 _ e7
  obtain ⟨s9, g9, e9, a9⟩ := getline_fields_cons s8 f8 f9 _ e8
  refine ⟨s9, ?_, e9⟩
  simp only [CCoNLLOutputNode.extract, g5, g6, g7, g8, g9, a6 h6, a7 h7, a8 h8, a9 h9,
    isEmpty_of_ne_nil h6, isEmpty_of_ne_nil h7, isEmpty_of_ne_nil h8, isEmpty_of_ne_nil h9,
    Bool.not_false, Bool.and_self, ASSERT_true, bind, Except.bind, pure, Except.pure]
  by_cases hu : f8 = ['_']
  · simp [hu]
  · simp [hu]

/-- The output decoder succeeds only on a stream with ten non-empty pending
fields. -/
theorem outputNode_extract_inv (is : IStream) (node : CCoNLLOutputNode)
    (r : IStream × CCoNLLOutputNode) (h : CCoNLLOutputNode.extract is node = .ok r) :
    ∃ f0 f1 f2 f3 f4 f5 f6 f7 f8 f9 rest,
      is.fields = f0 :: f1 :: f2 :: f3 :: f4 :: f5 :: f6 :: f7 :: f8 :: f9 :: rest
      ∧ f0 ≠ [] ∧ f1 ≠ [] ∧ f2 ≠ [] ∧ f3 ≠ [] ∧ f4 ≠ [] ∧ f5 ≠ []
      ∧ f6 ≠ [] ∧ f7 ≠ [] ∧ f8 ≠ [] ∧ f9 ≠ [] := by
  cases hin : CCoNLLInputNode.extract is node.toCCoNLLInputNode with
  | error msg =>
    simp [CCoNLLOutputNode.extract, hin, bind, Except.bind] at h
  | ok r5 =>
    obtain ⟨f0, f1, f2, f3, f4, f5, r5f, hF, h0, h1, h2, h3, h4, h5⟩ :=
      inputNode_extract_inv is _ r5 hin
    obtain ⟨s5, g5, e5⟩ :=
      inputNode_extract_ok is node.toCCoNLLInputNode f0 f1 f2 f3 f4 f5 _ hF
        h0 h1 h2 h3 h4 h5
    unfold CCoNLLOutputNode.extract at h
    simp only [g5, bind, Except.bind] at h
    rcases hF6 : r5f with _ | ⟨f6, r6⟩
    · obtain ⟨s, l, g, a, -⟩ := getline_fields_nil s5 [] (hF6 ▸ e5)
      simp [g, a, ASSERT, bind, Except.bind] at h
    obtain ⟨s6, g6, e6, a6⟩ := getline_fields_cons s5 [] f6 _ (hF6 ▸ e5)
    by_cases h6 : f6 = []
    · simp [g6, h6, ASSERT, bind, Except.bind] at h
    simp only [g6, a6 h6, isEmpty_of_ne_nil h6, Bool.not_false, Bool.and_self,
      ASSERT_true, bind, Except.bind] at h
    rcases hF7 : r6 with _ | ⟨f7, r7⟩
    · obtain ⟨s, l, g, a, -⟩ := getline_fields_nil s6 f6 (hF7 ▸ e6)
      simp [g, a, ASSERT, bind, Except.bind] at h
    obtain ⟨s7, g7, e7, a7⟩ := getline_fields_cons s6 f6 f7 _ (hF7 ▸ e6)
    by_cases h7 : f7 = []
    · simp [g7, h7, ASSERT, bind, Except.bind] at h
    simp only [g7, a7 h7, isEmpty_of_ne_nil h7, Bool.not_false, Bool.and_self,
      ASSERT_true, bind, Except.bind] at h
    rcases hF8 : r7 with _ | ⟨f8, r8⟩
    · obtain ⟨s, l, g, a, -⟩ := getline_fields_nil s7 f7 (hF8 ▸ e7)
      simp [g, a, ASSERT, bind, Except.bind] at h
    obtain ⟨s8, g8, e8, a8⟩ := getline_fields_cons s7 f7 f8 _ (hF8 ▸ e7)
    by_cases h8 : f8 = []
    · simp [g8, h8, ASSERT, bind, Except.bind] at h
    simp only [g8, a8 h8, isEmpty_of_ne_nil h8, Bool.not_false, Bool.and_self,
      ASSERT_true, bind, Except.bind] at h
    rcases hF9 : r8 with _ | ⟨f9, r9⟩
    · obtain ⟨s, l, g, a, -⟩ := getline_fields_nil s8 f8 (hF9 ▸ e8)
      simp [g, a, ASSERT, bind, Except.bind] at h
    by_cases h9 : f9 = []
    · obtain ⟨s9, g9, e9, a9⟩ := getline_fields_cons s8 f8 f9 _ (hF9 ▸ e8)
      simp [g9, h9, ASSERT, bind, Except.bind] at h
    subst hF6 hF7 hF8 hF9
    exact ⟨f0, f1, f2, f3, f4, f5, f6, f7, f8, f9, r9, hF, h0, h1, h2, h3, h4, h5, h6, h7, h8, h9⟩

/-! ## The encoders in terms of columns -/

theorem inputNode_insert_eq (os : Str) (node : CCoNLLInputNode) :
    CCoNLLInputNode.insert os node = os ++ ['\t'].intercalate node.columns := by
  simp [CCoNLLInputNode.insert, CCoNLLInputNode.columns, List.intercalate]

theorem outputNode_insert_eq (os : Str) (node : CCoNLLOutputNode) :
    CCoNLLOutputNode.insert os node = os ++ ['\t'].intercalate node.columns := by
  simp [CCoNLLOutputNode.insert, CCoNLLInputNode.insert, CCoNLLOutputNode.columns,
    CCoNLLInputNode.columns, List.intercalate, pheadText]

theorem tab_not_mem_pheadText (v : Int) : '\t' ∉ pheadText v := by
  unfold pheadText
  split
  · decide
  · exact tab_not_mem_intToStr v

theorem pheadText_ne_nil (v : Int) : pheadText v ≠ [] := by
  unfold pheadText
  split
  · simp
  · exact intToStr_ne_nil v

theorem newline_not_mem_pheadText (v : Int) : '\n' ∉ pheadText v := by
  unfold pheadText
  split
  · decide
  · exact newline_not_mem_intToStr v

/-- The columns of an encoded input token are recovered by splitting at
tabs. -/
theorem inputNode_splitOn_insert (node : CCoNLLInputNode)
    (h : '\t' ∉ node.word ∧ '\t' ∉ node.«lemma» ∧ '\t' ∉ node.ctag ∧ '\t' ∉ node.tag
      ∧ '\t' ∉ node.feats) :
    (CCoNLLInputNode.insert [] node).splitOn '\t' = node.columns := by
  rw [inputNode_insert_eq, List.nil_append]
  apply List.splitOn_intercalate
  · intro l hl
    simp only [CCoNLLInputNode.columns, List.mem_cons, List.mem_singleton, List.not_mem_nil,
      or_false] at hl
    rcases hl with rfl | rfl | rfl | rfl | rfl | rfl
    · exact tab_not_mem_intToStr _
    · exact h.1
    · exact h.2.1
    · exact h.2.2.1
    · exact h.2.2.2.1
    · exact h.2.2.2.2
  · simp [CCoNLLInputNode.columns]

/-- The columns of an encoded output token are recovered by splitting at
tabs. -/
theorem outputNode_splitOn_insert (node : CCoNLLOutputNode)
    (h : '\t' ∉ node.word ∧ '\t' ∉ node.«lemma» ∧ '\t' ∉ node.ctag ∧ '\t' ∉ node.tag
      ∧ '\t' ∉ node.feats ∧ '\t' ∉ node.label ∧ '\t' ∉ node.plabel) :
    (CCoNLLOutputNode.insert [] node).splitOn '\t' = node.columns := by
  rw [outputNode_insert_eq, List.nil_append]
  apply List.splitOn_intercalate
  · intro l hl
    simp only [CCoNLLOutputNode.columns, CCoNLLInputNode.columns, List.cons_append,
      List.nil_append, List.mem_cons, List.mem_singleton, List.not_mem_nil, or_false] at hl
    rcases hl with rfl | rfl | rfl | rfl | rfl | rfl | rfl | rfl | rfl | rfl
    · exact tab_not_mem_intToStr _
    · exact h.1
    · exact h.2.1
    · exact h.2.2.1
    · exact h.2.2.2.1
    · exact h.2.2.2.2.1
    · exact tab_not_mem_intToStr _
    · exact h.2.2.2.2.2.1
    · exact tab_not_mem_pheadText _
    · exact h.2.2.2.2.2.2
  · simp [CCoNLLOutputNode.columns]

theorem pheadText_decode (v old : Int) (h : IsCInt v) :
    (if pheadText v = ['_'] then DEPENDENCY_LINK_NO_HEAD else extractInt (pheadText v) old)
      = v := by
  unfold pheadText
  by_cases hv : v = DEPENDENCY_LINK_NO_HEAD
  · simp [hv]
  · simp only [hv, if_false, intToStr_ne_underscore v]
    exact extractInt_intToStr v old h

/-- Decoding an encoded input token gives the token back. -/
theorem inputNode_extract_insert (node start : CCoNLLInputNode)
    (hid : IsCInt node.id) (hv : node.ValidText) :
    ∃ is1, CCoNLLInputNode.extract (IStream.ofStr (CCoNLLInputNode.insert [] node)) start
      = .ok (is1, node) := by
  obtain ⟨⟨w0, w1, -⟩, ⟨l0, l1, -⟩, ⟨c0, c1, -⟩, ⟨t0, t1, -⟩, ⟨f0, f1, -⟩⟩ := hv
  have hf := fields_ofStr (CCoNLLInputNode.insert [] node)
  rw [inputNode_splitOn_insert node ⟨w1, l1, c1, t1, f1⟩, CCoNLLInputNode.columns] at hf
  obtain ⟨is1, h1, -⟩ := inputNode_extract_ok _ start _ _ _ _ _ _ _ hf
    (intToStr_ne_nil _) w0 l0 c0 t0 f0
  refine ⟨is1, ?_⟩
  rw [h1, extractInt_intToStr _ _ hid]

/-- Decoding an encoded output token gives the token back. -/
theorem outputNode_extract_insert (node start : CCoNLLOutputNode)
    (hi : node.IntFields) (hv : node.ValidText) :
    ∃ is1, CCoNLLOutputNode.extract (IStream.ofStr (CCoNLLOutputNode.insert [] node)) start
      = .ok (is1, node) := by
  obtain ⟨⟨⟨w0, w1, -⟩, ⟨l0, l1, -⟩, ⟨c0, c1, -⟩, ⟨t0, t1, -⟩, ⟨f0, f1, -⟩⟩,
    ⟨a0, a1, -⟩, ⟨p0, p1, -⟩⟩ := hv
  obtain ⟨i0, i1, i2⟩ := hi
  have hf := fields_ofStr (CCoNLLOutputNode.insert [] node)
  rw [outputNode_splitOn_insert node ⟨w1, l1, c1, t1, f1, a1, p1⟩,
    CCoNLLOutputNode.columns, CCoNLLInputNode.columns] at hf
  obtain ⟨is1, h1, -⟩ := outputNode_extract_ok _ start _ _ _ _ _ _ _ _ _ _ _ hf
    (intToStr_ne_nil _) w0 l0 c0 t0 f0 (intToStr_ne_nil _) a0 (pheadText_ne_nil _) p0
  refine ⟨is1, ?_⟩
  rw [h1, extractInt_intToStr _ _ i0, extractInt_intToStr _ _ i1, pheadText_decode _ _ i2]

/-! ## The sentence writers -/

theorem vecAt_append_cons {α : Type} (pre suf : List α) (a : α) :
    vecAt (pre ++ a :: suf) pre.length = .ok a := by
  unfold vecAt
  rw [List.getElem?_append_right (le_refl _)]
  simp

theorem vecAt_of_lt {α : Type} (v : List α) (i : Nat) (h : i < v.length) :
    vecAt v i = .ok (v.get ⟨i, h⟩) := by
  simp [vecAt, List.getElem?_eq_getElem h]

theorem vecAt_of_le {α : Type} (v : List α) (i : Nat) (h : v.length ≤ i) :
    vecAt v i = .error "std::out_of_range" := by
  simp [vecAt, List.getElem?_eq_none h]

/-- A loop that visits the elements of a vector from some index to the end,
folding them into the state. -/
theorem forLoop_vecAt {α σ : Type} (f : σ → α → σ) (suf : List α) :
    ∀ (pre : List α) (s : σ),
      forLoop (fun i s => do let node ← vecAt (pre ++ suf) i; pure (f s node))
        suf.length pre.length s = .ok (suf.foldl f s) := by
  induction suf with
  | nil => intro pre s; rfl
  | cons a as ih =>
    intro pre s
    have h := ih (pre ++ [a]) (f s a)
    simp only [List.append_assoc, List.singleton_append, List.length_append,
      List.length_singleton] at h
    simp only [forLoop, List.length_cons, vecAt_append_cons, bind, Except.bind, pure,
      Except.pure, List.foldl_cons]
    exact h

theorem inputNode_insert_append (os : Str) (node : CCoNLLInputNode) :
    CCoNLLInputNode.insert os node = os ++ CCoNLLInputNode.insert [] node := by
  rw [inputNode_insert_eq, inputNode_insert_eq [], List.nil_append]

theorem outputNode_insert_append (os : Str) (node : CCoNLLOutputNode) :
    CCoNLLOutputNode.insert os node = os ++ CCoNLLOutputNode.insert [] node := by
  rw [outputNode_insert_eq, outputNode_insert_eq [], List.nil_append]

theorem inputSent_foldl_insert (tokens : List CCoNLLInputNode) (os : Str) :
    tokens.foldl (fun os node => CCoNLLInputNode.insert os node ++ ['\n']) os
      = os ++ CCoNLLInput.linesOf tokens := by
  induction tokens generalizing os with
  | nil => simp [CCoNLLInput.linesOf]
  | cons a as ih =>
    rw [List.foldl_cons, ih, inputNode_insert_append]
    simp [CCoNLLInput.linesOf]

theorem outputSent_foldl_insert (tokens : List CCoNLLOutputNode) (os : Str) :
    tokens.foldl (fun os node => CCoNLLOutputNode.insert os node ++ ['\n']) os
      = os ++ CCoNLLOutput.linesOf tokens := by
  induction tokens generalizing os with
  | nil => simp [CCoNLLOutput.linesOf]
  | cons a as ih =>
    rw [List.foldl_cons, ih, outputNode_insert_append]
    simp [CCoNLLOutput.linesOf]

/-- The input sentence writer: the lines of the elements after the first,
then one newline. -/
theorem inputSent_insert_eq (os : Str) (sent : CCoNLLInput) :
    CCoNLLInput.insert os sent = .ok (os ++ CCoNLLInput.linesOf (sent.drop 1) ++ ['\n']) := by
  cases sent with
  | nil => simp [CCoNLLInput.insert, forLoop, CCoNLLInput.linesOf, bind, Except.bind, pure,
      Except.pure]
  | cons root tokens =>
    have h := forLoop_vecAt (fun (os : Str) node => CCoNLLInputNode.insert os node ++ ['\n'])
      tokens [root] os
    simp only [List.singleton_append, List.length_singleton] at h
    unfold CCoNLLInput.insert
    rw [show (root :: tokens).length - 1 = tokens.length from by simp, h]
    simp [bind, Except.bind, pure, Except.pure, inputSent_foldl_insert]

/-- The output sentence writer: the lines of the elements after the first,
then one newline. -/
theorem outputSent_insert_eq (os : Str) (sent : CCoNLLOutput) :
    CCoNLLOutput.insert os sent = .ok (os ++ CCoNLLOutput.linesOf (sent.drop 1) ++ ['\n']) := by
  cases sent with
  | nil => simp [CCoNLLOutput.insert, forLoop, CCoNLLOutput.linesOf, bind, Except.bind, pure,
      Except.pure]
  | cons root tokens =>
    have h := forLoop_vecAt (fun (os : Str) node => CCoNLLOutputNode.insert os node ++ ['\n'])
      tokens [root] os
    simp only [List.singleton_append, List.length_singleton] at h
    unfold CCoNLLOutput.insert
    rw [show (root :: tokens).length - 1 = tokens.length from by simp, h]
    simp [bind, Except.bind, pure, Except.pure, outputSent_foldl_insert]

/-! ## The sentence readers on written sentences -/

theorem inputNode_newline_not_mem_insert_of_free (node : CCoNLLInputNode)
    (hv : node.NewlineFree) : '\n' ∉ CCoNLLInputNode.insert [] node := by
  obtain ⟨w, l, c, t, f⟩ := hv
  simp [CCoNLLInputNode.insert, newline_not_mem_intToStr, w, l, c, t, f]

theorem outputNode_newline_not_mem_insert_of_free (node : CCoNLLOutputNode)
    (hv : node.NewlineFree) : '\n' ∉ CCoNLLOutputNode.insert [] node := by
  obtain ⟨hin, a, p⟩ := hv
  have hb := inputNode_newline_not_mem_insert_of_free _ hin
  have hp := newline_not_mem_pheadText node.phead
  have hh := newline_not_mem_intToStr node.head
  rw [outputNode_insert_eq, CCoNLLOutputNode.columns]
  rw [inputNode_insert_eq] at hb
  intro hmem
  simp only [List.nil_append, CCoNLLInputNode.columns, List.intercalate, List.cons_append,
    List.intersperse, List.flatten, List.mem_append, List.mem_cons, List.mem_singleton,
    List.not_mem_nil, or_false, List.append_nil] at hb hmem
  have ht : ('\n' : Char) ≠ '\t' := by decide
  simp only [ht, false_or, or_false] at hb hmem
  tauto

theorem inputNode_newline_not_mem_insert (node : CCoNLLInputNode)
    (hv : node.ValidText) : '\n' ∉ CCoNLLInputNode.insert [] node :=
  inputNode_newline_not_mem_insert_of_free node
    ⟨hv.1.2.2, hv.2.1.2.2, hv.2.2.1.2.2, hv.2.2.2.1.2.2, hv.2.2.2.2.2.2⟩

theorem outputNode_newline_not_mem_insert (node : CCoNLLOutputNode)
    (hv : node.ValidText) : '\n' ∉ CCoNLLOutputNode.insert [] node :=
  outputNode_newline_not_mem_insert_of_free node
    ⟨⟨hv.1.1.2.2, hv.1.2.1.2.2, hv.1.2.2.1.2.2, hv.1.2.2.2.1.2.2, hv.1.2.2.2.2.2.2⟩,
      hv.2.1.2.2, hv.2.2.2.2⟩

theorem inputNode_insert_ne_nil (node : CCoNLLInputNode) :
    CCoNLLInputNode.insert [] node ≠ [] := by
  simp [CCoNLLInputNode.insert]

theorem outputNode_insert_ne_nil (node : CCoNLLOutputNode) :
    CCoNLLOutputNode.insert [] node ≠ [] := by
  simp [CCoNLLOutputNode.insert]

theorem inputNode_lstrip_insert (node : CCoNLLInputNode) :
    lstrip (CCoNLLInputNode.insert [] node) ≠ [] := by
  have := lstrip_intToStr_append node.id
    (['\t'] ++ node.word ++ ['\t'] ++ node.«lemma» ++ ['\t'] ++ node.ctag ++ ['\t'] ++ node.tag
      ++ ['\t'] ++ node.feats)
  simpa [CCoNLLInputNode.insert] using this

theorem getline_nil_newline (tail line : Str) :
    getline { buf := '\n' :: tail, eof := false, fail := false } line '\n'
      = ({ buf := tail, eof := false, fail := false }, []) := by
  have := getline_delim '\n' [] tail line (by simp)
  simpa using this

/-- One round of the loop of the output reader. -/
theorem outputSent_extractLoop_round (fuel : Nat) (is is1 : IStream) (line : Str)
    (sent : CCoNLLOutput) (node : CCoNLLOutputNode) (hok : is.ok = true) (hline : line ≠ [])
    (hdec : CCoNLLOutputNode.extract (IStream.ofStr line) CCoNLLOutputNode.default
      = .ok (is1, node)) :
    CCoNLLOutput.extractLoop (fuel + 1) is line sent
      = CCoNLLOutput.extractLoop fuel (getline is line '\n').1 (getline is line '\n').2
          (sent ++ [node]) := by
  rw [CCoNLLOutput.extractLoop]
  simp only [hok, isEmpty_of_ne_nil hline, Bool.not_false, Bool.and_self, if_true, hdec, bind,
    Except.bind]

/-- The loop of the output reader stops when the stream has failed or the
line is empty. -/
theorem outputSent_extractLoop_stop (fuel : Nat) (is : IStream) (line : Str)
    (sent : CCoNLLOutput) (h : (is.ok && !line.isEmpty) = false) :
    CCoNLLOutput.extractLoop (fuel + 1) is line sent = .ok (is, sent) := by
  rw [CCoNLLOutput.extractLoop]
  simp only [h, Bool.false_eq_true, if_false, pure, Except.pure]

/-- One round of the loop of the input reader. -/
theorem inputSent_extractLoop_round (fuel : Nat) (is is1 : IStream) (line : Str)
    (sent : CCoNLLInput) (node : CCoNLLInputNode) (hok : is.ok = true)
    (hline : lstrip line ≠ [])
    (hdec : CCoNLLInputNode.extract (IStream.ofStr line) CCoNLLInputNode.default
      = .ok (is1, node)) :
    CCoNLLInput.extractLoop (fuel + 1) is line sent
      = CCoNLLInput.extractLoop fuel (getline is line '\n').1 (getline is line '\n').2
          (sent ++ [node]) := by
  rw [CCoNLLInput.extractLoop]
  simp only [hok, isEmpty_of_ne_nil hline, Bool.not_false, Bool.and_self, if_true, hdec, bind,
    Except.bind]

/-- The loop of the input reader stops when the stream has failed or the line
is blank. -/
theorem inputSent_extractLoop_stop (fuel : Nat) (is : IStream) (line : Str)
    (sent : CCoNLLInput) (h : (is.ok && !(lstrip line).isEmpty) = false) :
    CCoNLLInput.extractLoop (fuel + 1) is line sent = .ok (is, sent) := by
  rw [CCoNLLInput.extractLoop]
  simp only [h, Bool.false_eq_true, if_false, pure, Except.pure]

/-- The loop of the output reader, entered with the line of `cur` and with the
lines of `tokens` and a blank line next in the stream, appends `cur` and
`tokens` and stops behind the blank line. -/
theorem outputSent_extractLoop_written (tokens : List CCoNLLOutputNode) :
    ∀ (cur : CCoNLLOutputNode) (sent : CCoNLLOutput) (tail : Str) (fuel : Nat),
      (∀ n ∈ cur :: tokens, n.IntFields ∧ n.ValidText) → tokens.length + 2 ≤ fuel →
      CCoNLLOutput.extractLoop fuel
          { buf := CCoNLLOutput.linesOf tokens ++ '\n' :: tail, eof := false, fail := false }
          (CCoNLLOutputNode.insert [] cur) sent
        = .ok ({ buf := tail, eof := false, fail := false }, sent ++ cur :: tokens) := by
  induction tokens with
  | nil =>
    intro cur sent tail fuel hv hfuel
    obtain ⟨f2, rfl⟩ : ∃ f2, fuel = f2 + 2 := ⟨fuel - 2, by simp at hfuel; omega⟩
    obtain ⟨hi, ht⟩ := hv cur (List.mem_cons_self _ _)
    obtain ⟨is1, hdec⟩ := outputNode_extract_insert cur CCoNLLOutputNode.default hi ht
    rw [outputSent_extractLoop_round _ ⟨_, false, false⟩ is1 _ _ cur rfl (outputNode_insert_ne_nil cur) hdec]
    have hb : CCoNLLOutput.linesOf [] ++ '\n' :: tail = '\n' :: tail := by
      simp [CCoNLLOutput.linesOf]
    rw [hb, getline_nil_newline, outputSent_extractLoop_stop _ _ _ _ (by rfl)]
  | cons n ns ih =>
    intro cur sent tail fuel hv hfuel
    obtain ⟨f1, rfl⟩ : ∃ f1, fuel = f1 + 1 := ⟨fuel - 1, by simp at hfuel; omega⟩
    obtain ⟨hi, ht⟩ := hv cur (List.mem_cons_self _ _)
    obtain ⟨is1, hdec⟩ := outputNode_extract_insert cur CCoNLLOutputNode.default hi ht
    have hn := hv n (List.mem_cons_of_mem _ (List.mem_cons_self _ _))
    have hg := getline_delim '\n' (CCoNLLOutputNode.insert [] n)
      (CCoNLLOutput.linesOf ns ++ '\n' :: tail) (CCoNLLOutputNode.insert [] cur)
      (outputNode_newline_not_mem_insert n hn.2)
    have hbuf : CCoNLLOutput.linesOf (n :: ns) ++ '\n' :: tail
        = CCoNLLOutputNode.insert [] n ++ '\n' :: (CCoNLLOutput.linesOf ns ++ '\n' :: tail) := by
      simp [CCoNLLOutput.linesOf]
    have hrec := ih n (sent ++ [cur]) tail f1
      (fun m hm => hv m (List.mem_cons_of_mem _ hm)) (by simp at hfuel; omega)
    rw [outputSent_extractLoop_round _ ⟨_, false, false⟩ is1 _ _ cur rfl (outputNode_insert_ne_nil cur) hdec, hbuf, hg, hrec]
    simp

/-- The loop of the input reader, entered with the line of `cur` and with the
lines of `tokens` and a blank line next in the stream, appends `cur` and
`tokens` and stops behind the blank line. -/
theorem inputSent_extractLoop_written (tokens : List CCoNLLInputNode) :
    ∀ (cur : CCoNLLInputNode) (sent : CCoNLLInput) (tail : Str) (fuel : Nat),
      (∀ n ∈ cur :: tokens, IsCInt n.id ∧ n.ValidText) → tokens.length + 2 ≤ fuel →
      CCoNLLInput.extractLoop fuel
          { buf := CCoNLLInput.linesOf tokens ++ '\n' :: tail, eof := false, fail := false }
          (CCoNLLInputNode.insert [] cur) sent
        = .ok ({ buf := tail, eof := false, fail := false }, sent ++ cur :: tokens) := by
  induction tokens with
  | nil =>
    intro cur sent tail fuel hv hfuel
    obtain ⟨f2, rfl⟩ : ∃ f2, fuel = f2 + 2 := ⟨fuel - 2, by simp at hfuel; omega⟩
    obtain ⟨hi, ht⟩ := hv cur (List.mem_cons_self _ _)
    obtain ⟨is1, hdec⟩ := inputNode_extract_insert cur CCoNLLInputNode.default hi ht
    rw [inputSent_extractLoop_round _ ⟨_, false, false⟩ is1 _ _ cur rfl (inputNode_lstrip_insert cur) hdec]
    have hb : CCoNLLInput.linesOf [] ++ '\n' :: tail = '\n' :: tail := by
      simp [CCoNLLInput.linesOf]
    rw [hb, getline_nil_newline, inputSent_extractLoop_stop _ _ _ _ (by rfl)]
  | cons n ns ih =>
    intro cur sent tail fuel hv hfuel
    obtain ⟨f1, rfl⟩ : ∃ f1, fuel = f1 + 1 := ⟨fuel - 1, by simp at hfuel; omega⟩
    obtain ⟨hi, ht⟩ := hv cur (List.mem_cons_self _ _)
    obtain ⟨is1, hdec⟩ := inputNode_extract_insert cur CCoNLLInputNode.default hi ht
    have hn := hv n (List.mem_cons_of_mem _ (List.mem_cons_self _ _))
    have hg := getline_delim '\n' (CCoNLLInputNode.insert [] n)
      (CCoNLLInput.linesOf ns ++ '\n' :: tail) (CCoNLLInputNode.insert [] cur)
      (inputNode_newline_not_mem_insert n hn.2)
    have hbuf : CCoNLLInput.linesOf (n :: ns) ++ '\n' :: tail
        = CCoNLLInputNode.insert [] n ++ '\n' :: (CCoNLLInput.linesOf ns ++ '\n' :: tail) := by
      simp [CCoNLLInput.linesOf]
    have hrec := ih n (sent ++ [cur]) tail f1
      (fun m hm => hv m (List.mem_cons_of_mem _ hm)) (by simp at hfuel; omega)
    rw [inputSent_extractLoop_round _ ⟨_, false, false⟩ is1 _ _ cur rfl (inputNode_lstrip_insert cur) hdec, hbuf, hg, hrec]
    simp

theorem inputSent_length_linesOf (tokens : List CCoNLLInputNode) :
    tokens.length ≤ (CCoNLLInput.linesOf tokens).length := by
  induction tokens with
  | nil => simp
  | cons n ns ih =>
    simp only [CCoNLLInput.linesOf, List.map_cons, List.flatten_cons, List.length_append,
      List.length_cons, List.length_nil] at ih ⊢
    omega

theorem outputSent_length_linesOf (tokens : List CCoNLLOutputNode) :
    tokens.length ≤ (CCoNLLOutput.linesOf tokens).length := by
  induction tokens with
  | nil => simp
  | cons n ns ih =>
    simp only [CCoNLLOutput.linesOf, List.map_cons, List.flatten_cons, List.length_append,
      List.length_cons, List.length_nil] at ih ⊢
    omega

/-- The output reader on the lines of `tokens` followed by a blank line and
any further text: the sentence is the root followed by `tokens`, and the
further text is left unread. -/
theorem outputSent_extract_written (tokens : List CCoNLLOutputNode) (prior : CCoNLLOutput)
    (tail : Str) (hv : ∀ n ∈ tokens, n.IntFields ∧ n.ValidText) :
    CCoNLLOutput.extract (IStream.ofStr (CCoNLLOutput.linesOf tokens ++ '\n' :: tail)) prior
      = .ok ({ buf := tail, eof := false, fail := false }, CCoNLLOutput.root :: tokens) := by
  cases tokens with
  | nil =>
    have hb : CCoNLLOutput.linesOf [] ++ '\n' :: tail = '\n' :: tail := by
      simp [CCoNLLOutput.linesOf]
    simp only [CCoNLLOutput.extract, IStream.ofStr, hb, getline_nil_newline]
    exact outputSent_extractLoop_stop _ _ _ _ (by rfl)
  | cons n ns =>
    have hbuf : CCoNLLOutput.linesOf (n :: ns) ++ '\n' :: tail
        = CCoNLLOutputNode.insert [] n ++ '\n' :: (CCoNLLOutput.linesOf ns ++ '\n' :: tail) := by
      simp [CCoNLLOutput.linesOf]
    have hg := getline_delim '\n' (CCoNLLOutputNode.insert [] n)
      (CCoNLLOutput.linesOf ns ++ '\n' :: tail) []
      (outputNode_newline_not_mem_insert n (hv n (List.mem_cons_self _ _)).2)
    simp only [CCoNLLOutput.extract, IStream.ofStr, hbuf, hg]
    have hlen := outputSent_length_linesOf ns
    exact outputSent_extractLoop_written ns n (CCoNLLOutput.clear prior) tail _ hv
      (by simp only [List.length_append]; omega)

/-- The input reader on the lines of `tokens` followed by a blank line and any
further text: the sentence is the root followed by `tokens`, and the further
text is left unread. -/
theorem inputSent_extract_written (tokens : List CCoNLLInputNode) (prior : CCoNLLInput)
    (tail : Str) (hv : ∀ n ∈ tokens, IsCInt n.id ∧ n.ValidText) :
    CCoNLLInput.extract (IStream.ofStr (CCoNLLInput.linesOf tokens ++ '\n' :: tail)) prior
      = .ok ({ buf := tail, eof := false, fail := false }, CCoNLLInput.root :: tokens) := by
  cases tokens with
  | nil =>
    have hb : CCoNLLInput.linesOf [] ++ '\n' :: tail = '\n' :: tail := by
      simp [CCoNLLInput.linesOf]
    simp only [CCoNLLInput.extract, IStream.ofStr, hb, getline_nil_newline]
    exact inputSent_extractLoop_stop _ _ _ _ (by rfl)
  | cons n ns =>
    have hbuf : CCoNLLInput.linesOf (n :: ns) ++ '\n' :: tail
        = CCoNLLInputNode.insert [] n ++ '\n' :: (CCoNLLInput.linesOf ns ++ '\n' :: tail) := by
      simp [CCoNLLInput.linesOf]
    have hg := getline_delim '\n' (CCoNLLInputNode.insert [] n)
      (CCoNLLInput.linesOf ns ++ '\n' :: tail) []
      (inputNode_newline_not_mem_insert n (hv n (List.mem_cons_self _ _)).2)
    simp only [CCoNLLInput.extract, IStream.ofStr, hbuf, hg]
    have hlen := inputSent_length_linesOf ns
    exact inputSent_extractLoop_written ns n (CCoNLLInput.clear prior) tail _ hv
      (by simp only [List.length_append]; omega)

/-! ## The conversions -/

theorem length_vecResize {α : Type} (v : List α) (n : Nat) (dflt : α) :
    (vecResize v n dflt).length = n := by
  simp only [vecResize, List.length_append, List.length_take, List.length_replicate]
  omega

/-- A loop that overwrites the elements of a vector, in order, with values
computed from the elements of a second vector: it succeeds when the second
vector is not the longer one, and the elements beyond it are left alone. -/
theorem forLoop_update {α β : Type} (g : β → α → β) (input : List α) :
    ∀ (pi : List α) (ps s : List β), pi.length = ps.length → input.length ≤ s.length →
      forLoop (fun i (self : List β) => do
          let src ← vecAt (pi ++ input) i
          let dst ← vecAt self i
          pure (self.set i (g dst src)))
        input.length pi.length (ps ++ s)
      = .ok (ps ++ (List.zipWith g s input ++ s.drop input.length)) := by
  induction input with
  | nil => intro pi ps s _ _; simp [forLoop]
  | cons a as ih =>
    intro pi ps s hlen hle
    cases s with
    | nil => simp at hle
    | cons b bs =>
      have h := ih (pi ++ [a]) (ps ++ [g b a]) bs (by simp [hlen])
        (by simpa using hle)
      simp only [List.append_assoc, List.singleton_append, List.length_append,
        List.length_singleton] at h
      have hsrc : vecAt (pi ++ a :: as) pi.length = .ok a := vecAt_append_cons pi as a
      have hdst : vecAt (ps ++ b :: bs) pi.length = .ok b := by
        rw [hlen]; exact vecAt_append_cons ps bs b
      have hset : (ps ++ b :: bs).set pi.length (g b a) = ps ++ g b a :: bs := by
        rw [hlen]; simp
      simp only [forLoop, List.length_cons, hsrc, hdst, hset, bind, Except.bind, pure,
        Except.pure, List.zipWith_cons_cons, List.drop_succ_cons, List.cons_append]
      exact h

/-- The method `fromCoNLLInput` resizes and then overwrites the input part of
every element. -/
theorem outputSent_fromCoNLLInput_eq (self : CCoNLLOutput) (input : CCoNLLInput) :
    CCoNLLOutput.fromCoNLLInput self input
      = .ok (List.zipWith (fun (dst : CCoNLLOutputNode) src =>
                { dst with toCCoNLLInputNode := src })
              (vecResize self input.length CCoNLLOutputNode.default) input) := by
  have h := forLoop_update
    (fun (dst : CCoNLLOutputNode) (src : CCoNLLInputNode) =>
      { dst with toCCoNLLInputNode := src })
    input [] [] (vecResize self input.length CCoNLLOutputNode.default) rfl
    (by rw [length_vecResize])
  simp only [List.nil_append, List.length_nil] at h
  unfold CCoNLLOutput.fromCoNLLInput
  simp only [Nat.sub_zero]
  rw [h]
  rw [List.drop_of_length_le (by rw [length_vecResize]), List.append_nil]

/-- The method `copyDependencyHeads` on a tree that is not longer than the
sentence overwrites the heads of the first elements. -/
theorem outputSent_copyDependencyHeads_eq (self : CCoNLLOutput) (tree : CDependencyTree)
    (hle : tree.length ≤ self.length) :
    CCoNLLOutput.copyDependencyHeads self tree
      = .ok (List.zipWith (fun (dst : CCoNLLOutputNode) (src : CDependencyTreeNode) =>
                { dst with head := src.head }) self tree ++ self.drop tree.length) := by
  have h := forLoop_update
    (fun (dst : CCoNLLOutputNode) (src : CDependencyTreeNode) => { dst with head := src.head })
    tree [] [] self rfl hle
  simp only [List.nil_append, List.length_nil] at h
  unfold CCoNLLOutput.copyDependencyHeads
  simp only [Nat.sub_zero]
  rw [h]

theorem forLoop_toTree (suf : CCoNLLOutput) :
    ∀ (pre : CCoNLLOutput) (out : CDependencyTree),
      forLoop (fun i (out : CDependencyTree) => do
          let w ← vecAt (pre ++ suf) i
          let t ← vecAt (pre ++ suf) i
          let h ← vecAt (pre ++ suf) i
          pure (out ++ [{ word := w.word, tag := t.tag, head := h.head }]))
        suf.length pre.length out
      = .ok (out ++ suf.map (fun n => { word := n.word, tag := n.tag, head := n.head })) := by
  induction suf with
  | nil => intro pre out; simp [forLoop]
  | cons a as ih =>
    intro pre out
    have h := ih (pre ++ [a]) (out ++ [{ word := a.word, tag := a.tag, head := a.head }])
    simp only [List.append_assoc, List.singleton_append, List.length_append,
      List.length_singleton] at h
    simp only [forLoop, List.length_cons, vecAt_append_cons, bind, Except.bind, pure,
      Except.pure, List.map_cons]
    exact h

/-- The method `toDependencyTree` yields one node per element, in order. -/
theorem outputSent_toDependencyTree_eq (self : CCoNLLOutput) (out : CDependencyTree) :
    CCoNLLOutput.toDependencyTree self out
      = .ok (self.map (fun n => { word := n.word, tag := n.tag, head := n.head })) := by
  have h := forLoop_toTree self [] []
  simp only [List.nil_append, List.length_nil] at h
  unfold CCoNLLOutput.toDependencyTree
  simp only [Nat.sub_zero]
  rw [h]

theorem map_zipWith_heads (r : CCoNLLOutput) :
    ∀ (input : CCoNLLInput) (tree : CDependencyTree),
      r.length = input.length → input.length = tree.length →
      (List.zipWith (fun (dst : CCoNLLOutputNode) (src : CDependencyTreeNode) =>
            { dst with head := src.head })
          (List.zipWith (fun (dst : CCoNLLOutputNode) src =>
            { dst with toCCoNLLInputNode := src }) r input) tree).map
        (fun n => ({ word := n.word, tag := n.tag, head := n.head } : CDependencyTreeNode))
      = List.zipWith (fun (i : CCoNLLInputNode) (t : CDependencyTreeNode) =>
          ({ word := i.word, tag := i.tag, head := t.head } : CDependencyTreeNode))
          input tree := by
  induction r with
  | nil =>
    intro input tree h1 h2
    cases input with
    | nil => simp
    | cons a as => simp at h1
  | cons x xs ih =>
    intro input tree h1 h2
    cases input with
    | nil => simp at h1
    | cons a as =>
      cases tree with
      | nil => simp at h2
      | cons t ts =>
        simp only [List.length_cons, Nat.add_right_cancel_iff] at h1 h2
        simp only [List.zipWith_cons_cons, List.map_cons, ih as ts h1 h2]

/-! ## Success of the decoders in terms of the columns of a line -/

theorem take_six_of_cons {f0 f1 f2 f3 f4 f5 : Str} {rest : List Str} :
    (f0 :: f1 :: f2 :: f3 :: f4 :: f5 :: rest).take 6 = [f0, f1, f2, f3, f4, f5] := rfl

theorem take_ten_of_cons {f0 f1 f2 f3 f4 f5 f6 f7 f8 f9 : Str} {rest : List Str} :
    (f0 :: f1 :: f2 :: f3 :: f4 :: f5 :: f6 :: f7 :: f8 :: f9 :: rest).take 10
      = [f0, f1, f2, f3, f4, f5, f6, f7, f8, f9] := rfl

/-- The input decoder succeeds on a line exactly when its first six
tab-separated columns are there and none of them is empty. -/
theorem inputNode_extract_ok_iff (line : Str) (start : CCoNLLInputNode) :
    (∃ r, CCoNLLInputNode.extract (IStream.ofStr line) start = .ok r)
      ↔ (6 ≤ (line.splitOn '\t').length ∧ ∀ f ∈ (line.splitOn '\t').take 6, f ≠ []) := by
  constructor
  · rintro ⟨r, hr⟩
    obtain ⟨f0, f1, f2, f3, f4, f5, rest, hF, h0, h1, h2, h3, h4, h5⟩ :=
      inputNode_extract_inv _ _ r hr
    rw [fields_ofStr] at hF
    rw [hF, take_six_of_cons]
    refine ⟨by simp, ?_⟩
    simp only [List.mem_cons, List.mem_singleton, List.not_mem_nil, or_false,
      forall_eq_or_imp, forall_eq]
    exact ⟨h0, h1, h2, h3, h4, h5⟩
  · rintro ⟨hlen, hne⟩
    have hf := fields_ofStr line
    match hs : line.splitOn '\t', hlen, hne with
    | f0 :: f1 :: f2 :: f3 :: f4 :: f5 :: rest, _, hne =>
      rw [hs] at hf
      simp only [take_six_of_cons, List.mem_cons, List.mem_singleton, List.not_mem_nil,
        or_false, forall_eq_or_imp, forall_eq] at hne
      obtain ⟨h0, h1, h2, h3, h4, h5⟩ := hne
      obtain ⟨is1, hok, -⟩ := inputNode_extract_ok _ start _ _ _ _ _ _ _ hf
        h0 h1 h2 h3 h4 h5
      exact ⟨_, hok⟩

/-- The output decoder succeeds on a line exactly when its first ten
tab-separated columns are there and none of them is empty. -/
theorem outputNode_extract_ok_iff (line : Str) (start : CCoNLLOutputNode) :
    (∃ r, CCoNLLOutputNode.extract (IStream.ofStr line) start = .ok r)
      ↔ (10 ≤ (line.splitOn '\t').length ∧ ∀ f ∈ (line.splitOn '\t').take 10, f ≠ []) := by
  constructor
  · rintro ⟨r, hr⟩
    obtain ⟨f0, f1, f2, f3, f4, f5, f6, f7, f8, f9, rest, hF, h0, h1, h2, h3, h4, h5, h6, h7,
      h8, h9⟩ := outputNode_extract_inv _ _ r hr
    rw [fields_ofStr] at hF
    rw [hF, take_ten_of_cons]
    refine ⟨by simp, ?_⟩
    simp only [List.mem_cons, List.mem_singleton, List.not_mem_nil, or_false,
      forall_eq_or_imp, forall_eq]
    exact ⟨h0, h1, h2, h3, h4, h5, h6, h7, h8, h9⟩
  · rintro ⟨hlen, hne⟩
    have hf := fields_ofStr line
    match hs : line.splitOn '\t', hlen, hne with
    | f0 :: f1 :: f2 :: f3 :: f4 :: f5 :: f6 :: f7 :: f8 :: f9 :: rest, _, hne =>
      rw [hs] at hf
      simp only [take_ten_of_cons, List.mem_cons, List.mem_singleton, List.not_mem_nil,
        or_false, forall_eq_or_imp, forall_eq] at hne
      obtain ⟨h0, h1, h2, h3, h4, h5, h6, h7, h8, h9⟩ := hne
      obtain ⟨is1, hok, -⟩ := outputNode_extract_ok _ start _ _ _ _ _ _ _ _ _ _ _ hf
        h0 h1 h2 h3 h4 h5 h6 h7 h8 h9
      exact ⟨_, hok⟩

theorem except_error_of_not_ok {α : Type} (x : Except String α) (h : ¬ ∃ r, x = .ok r) :
    ∃ msg, x = .error msg := by
  cases x with
  | error msg => exact ⟨msg, rfl⟩
  | ok r => exact absurd ⟨r, rfl⟩ h

/-! ## Boundary cases of the readers and the layout of written sentences -/

/-- Lines that are each followed by a newline, and then one more newline, are
the lines and two empty strings joined by newlines. -/
theorem lines_intercalate (lines : List Str) :
    (lines.map (fun l => l ++ ['\n'])).flatten ++ ['\n']
      = ['\n'].intercalate (lines ++ [[], []]) := by
  induction lines with
  | nil => rfl
  | cons a as ih =>
    obtain ⟨b, bs, hb⟩ : ∃ b bs, as ++ [[], []] = b :: bs := by
      cases as with
      | nil => exact ⟨_, _, rfl⟩
      | cons x xs => exact ⟨_, _, rfl⟩
    rw [List.map_cons, List.flatten_cons, List.append_assoc, ih, List.cons_append, hb]
    simp [List.intercalate, List.intersperse]

theorem splitOn_lines (lines : List Str) (h : ∀ l ∈ lines, '\n' ∉ l) :
    ((lines.map (fun l => l ++ ['\n'])).flatten ++ ['\n']).splitOn '\n'
      = lines ++ [[], []] := by
  rw [lines_intercalate]
  apply List.splitOn_intercalate
  · intro l hl
    rcases List.mem_append.1 hl with hl | hl
    · exact h l hl
    · simp only [List.mem_cons, List.mem_singleton, List.not_mem_nil, or_false, or_self] at hl
      subst hl
      simp
  · simp

/-! ## The loop bound of the readers is never reached -/

/-- Every `getline` on a stream that has not failed lowers the bound on the
remaining rounds. -/
theorem getline_rounds (is : IStream) (line : Str) (delim : Char) (h : is.ok = true) :
    (getline is line delim).1.rounds < is.rounds := by
  have hfail : is.fail = false := by simpa [IStream.ok] using h
  unfold getline
  cases hg : is.good with
  | false =>
    have heof : is.eof = true := by
      simpa [IStream.good, hfail] using hg
    simp [IStream.rounds, hfail, heof]
  | true =>
    have heof : is.eof = false := by
      have := hg
      simp only [IStream.good, hfail, Bool.not_false, Bool.and_true,
        Bool.not_eq_true'] at this
      exact this
    simp only [if_true]
    cases hd : is.buf.dropWhile (fun c => c != delim) with
    | nil =>
      simp only [IStream.rounds, hfail, heof, Bool.false_eq_true, if_false]
      split <;> simp
    | cons c rest =>
      have hlen : (is.buf.dropWhile (fun c => c != delim)).length ≤ is.buf.length :=
        (List.dropWhile_sublist _).length_le
      rw [hd, List.length_cons] at hlen
      simp only [IStream.rounds, hfail, heof, Bool.false_eq_true, if_false]
      omega

/-- The loop of the output reader does not depend on its bound once the bound
exceeds the rounds the stream allows. -/
theorem outputSent_extractLoop_bound (fuel : Nat) :
    ∀ (is : IStream) (line : Str) (sent : CCoNLLOutput) (k : Nat), is.rounds < fuel →
      CCoNLLOutput.extractLoop (fuel + k) is line sent
        = CCoNLLOutput.extractLoop fuel is line sent := by
  induction fuel with
  | zero => intro is line sent k h; omega
  | succ f ih =>
    intro is line sent k h
    rw [show f + 1 + k = (f + k) + 1 from by omega, CCoNLLOutput.extractLoop,
      CCoNLLOutput.extractLoop]
    by_cases hc : (is.ok && !line.isEmpty) = true
    · have hok : is.ok = true := by
        simp only [Bool.and_eq_true] at hc
        exact hc.1
      have hr := getline_rounds is line '\n' hok
      simp only [hc, if_true]
      cases hdec : CCoNLLOutputNode.extract (IStream.ofStr line) CCoNLLOutputNode.default with
      | error msg => rfl
      | ok r =>
        simp only [bind, Except.bind]
        exact ih _ _ _ k (by omega)
    · simp only [hc, Bool.false_eq_true, if_false]

/-- The loop of the input reader does not depend on its bound once the bound
exceeds the rounds the stream allows. -/
theorem inputSent_extractLoop_bound (fuel : Nat) :
    ∀ (is : IStream) (line : Str) (sent : CCoNLLInput) (k : Nat), is.rounds < fuel →
      CCoNLLInput.extractLoop (fuel + k) is line sent
        = CCoNLLInput.extractLoop fuel is line sent := by
  induction fuel with
  | zero => intro is line sent k h; omega
  | succ f ih =>
    intro is line sent k h
    rw [show f + 1 + k = (f + k) + 1 from by omega, CCoNLLInput.extractLoop,
      CCoNLLInput.extractLoop]
    by_cases hc : (is.ok && !(lstrip line).isEmpty) = true
    · have hok : is.ok = true := by
        simp only [Bool.and_eq_true] at hc
        exact hc.1
      have hr := getline_rounds is line '\n' hok
      simp only [hc, if_true]
      cases hdec : CCoNLLInputNode.extract (IStream.ofStr line) CCoNLLInputNode.default with
      | error msg => rfl
      | ok r =>
        simp only [bind, Except.bind]
        exact ih _ _ _ k (by omega)
    · simp only [hc, Bool.false_eq_true, if_false]

theorem rounds_le (is : IStream) : is.rounds < is.buf.length + 3 := by
  unfold IStream.rounds
  split
  · omega
  · split <;> omega

/-- The output reader gives the same result with any larger loop bound than
the one it uses: the bound is never reached. -/
theorem outputSent_extract_bound (is : IStream) (sent : CCoNLLOutput) (k : Nat) :
    CCoNLLOutput.extractLoop ((getline is [] '\n').1.buf.length + 3 + k)
        (getline is [] '\n').1 (getline is [] '\n').2 (CCoNLLOutput.clear sent)
      = CCoNLLOutput.extract is sent :=
  outputSent_extractLoop_bound _ _ _ _ k (rounds_le _)

/-- The input reader gives the same result with any larger loop bound than the
one it uses: the bound is never reached. -/
theorem inputSent_extract_bound (is : IStream) (sent : CCoNLLInput) (k : Nat) :
    CCoNLLInput.extractLoop ((getline is [] '\n').1.buf.length + 3 + k)
        (getline is [] '\n').1 (getline is [] '\n').2 (CCoNLLInput.clear sent)
      = CCoNLLInput.extract is sent :=
  inputSent_extractLoop_bound _ _ _ _ k (rounds_le _)

/-! ## The conversions on vectors of different lengths -/

/-- A loop that overwrites the elements of a vector from a longer second
vector runs past the end of the first and raises `std::out_of_range`. -/
theorem forLoop_update_fail {α β : Type} (g : β → α → β) (input : List α) :
    ∀ (pi : List α) (ps s : List β), pi.length = ps.length → s.length < input.length →
      forLoop (fun i (self : List β) => do
          let src ← vecAt (pi ++ input) i
          let dst ← vecAt self i
          pure (self.set i (g dst src)))
        input.length pi.length (ps ++ s)
      = .error "std::out_of_range" := by
  induction input with
  | nil => intro pi ps s _ hlt; simp at hlt
  | cons a as ih =>
    intro pi ps s hlen hlt
    have hsrc : vecAt (pi ++ a :: as) pi.length = .ok a := vecAt_append_cons pi as a
    cases s with
    | nil =>
      have hdst : vecAt (ps ++ ([] : List β)) pi.length = .error "std::out_of_range" :=
        vecAt_of_le _ _ (by simp [hlen])
      simp only [forLoop, List.length_cons, hsrc, hdst, bind, Except.bind]
    | cons b bs =>
      have h := ih (pi ++ [a]) (ps ++ [g b a]) bs (by simp [hlen])
        (by simpa using hlt)
      simp only [List.append_assoc, List.singleton_append, List.length_append,
        List.length_singleton] at h
      have hdst : vecAt (ps ++ b :: bs) pi.length = .ok b := by
        rw [hlen]; exact vecAt_append_cons ps bs b
      have hset : (ps ++ b :: bs).set pi.length (g b a) = ps ++ g b a :: bs := by
        rw [hlen]; simp
      simp only [forLoop, List.length_cons, hsrc, hdst, hset, bind, Except.bind, pure,
        Except.pure]
      exact h

/-- The method `copyDependencyHeads` on a tree that is longer than the sentence
raises `std::out_of_range`. -/
theorem outputSent_copyDependencyHeads_fail (self : CCoNLLOutput) (tree : CDependencyTree)
    (hlt : self.length < tree.length) :
    CCoNLLOutput.copyDependencyHeads self tree = .error "std::out_of_range" := by
  have h := forLoop_update_fail
    (fun (dst : CCoNLLOutputNode) (src : CDependencyTreeNode) => { dst with head := src.head })
    tree [] [] self rfl hlt
  simp only [List.nil_append, List.length_nil] at h
  unfold CCoNLLOutput.copyDependencyHeads
  simp only [Nat.sub_zero]
  rw [h]

theorem getElem?_vecResize_lt {α : Type} (v : List α) (n i : Nat) (dflt : α)
    (hi : i < n) (hv : i < v.length) : (vecResize v n dflt)[i]? = v[i]? := by
  unfold vecResize
  rw [List.getElem?_append_left (by simp; omega), List.getElem?_take_of_lt hi]

theorem getElem?_vecResize_ge {α : Type} (v : List α) (n i : Nat) (dflt : α)
    (hi : i < n) (hv : v.length ≤ i) : (vecResize v n dflt)[i]? = some dflt := by
  unfold vecResize
  have hlen : (v.take n).length = v.length := by simp; omega
  rw [List.getElem?_append_right (by omega), hlen, List.getElem?_replicate,
    if_pos (by omega)]

theorem getElem?_lt_of_eq_some {α : Type} {v : List α} {i : Nat} {a : α}
    (h : v[i]? = some a) : i < v.length := by
  by_contra hn
  rw [List.getElem?_eq_none (by omega)] at h
  exact Option.noConfusion h

/-! ## The sentence readers on arbitrary lines -/

theorem getline_of_good (is : IStream) (l1 l2 : Str) (delim : Char) (h : is.good = true) :
    getline is l1 delim = getline is l2 delim := by
  simp [getline, h]

theorem takeWhile_ne_delim_all (delim : Char) (pre : Str) (h : delim ∉ pre) :
    pre.takeWhile (fun c => c != delim) = pre := by
  rw [List.takeWhile_eq_self_iff]
  intro c hc
  simp only [bne_iff_ne, ne_eq]
  rintro rfl
  exact h hc

theorem dropWhile_ne_delim_all (delim : Char) (pre : Str) (h : delim ∉ pre) :
    pre.dropWhile (fun c => c != delim) = [] := by
  rw [List.dropWhile_eq_nil_iff]
  intro c hc
  simp only [bne_iff_ne, ne_eq]
  rintro rfl
  exact h hc

/-- A last line without its delimiter is read whole and sets `eofbit`;
`failbit` is set as well when the line is empty. -/
theorem getline_eof (delim : Char) (pre line : Str) (h : delim ∉ pre) :
    getline { buf := pre, eof := false, fail := false } line delim
      = ({ buf := [], eof := true, fail := pre.isEmpty }, pre) := by
  simp [getline, IStream.good, takeWhile_ne_delim_all delim pre h,
    dropWhile_ne_delim_all delim pre h]

theorem textOfLines_cons (l : Str) (ls : List Str) (rest : Str) :
    textOfLines (l :: ls) ++ rest = l ++ '\n' :: (textOfLines ls ++ rest) := by
  simp [textOfLines]

theorem outputSent_decodesTo_ne_nil (line : Str) (node : CCoNLLOutputNode)
    (h : CCoNLLOutput.DecodesTo line node) : line ≠ [] := by
  rintro rfl
  obtain ⟨is1, h⟩ := h
  have := (outputNode_extract_ok_iff [] CCoNLLOutputNode.default).1 ⟨_, h⟩
  revert this
  decide

/-- The loop of the output reader, entered with a line that decodes and with
further lines that decode next in the stream, appends the decoded tokens and
goes on with what follows the lines. -/
theorem outputSent_extractLoop_lines (lines : List Str) :
    ∀ (nodes : List CCoNLLOutputNode) (cur : Str) (curnode : CCoNLLOutputNode)
      (sent : CCoNLLOutput) (fuel : Nat) (rest : Str),
      List.Forall₂ CCoNLLOutput.DecodesTo lines nodes → (∀ l ∈ lines, '\n' ∉ l) →
      CCoNLLOutput.DecodesTo cur curnode →
      CCoNLLOutput.extractLoop (fuel + (lines.length + 1))
          { buf := textOfLines lines ++ rest, eof := false, fail := false } cur sent
        = CCoNLLOutput.extractLoop fuel (getline (IStream.ofStr rest) [] '\n').1
            (getline (IStream.ofStr rest) [] '\n').2 (sent ++ curnode :: nodes) := by
  induction lines with
  | nil =>
    intro nodes cur curnode sent fuel rest hdec _ hcur
    cases hdec
    obtain ⟨is1, hc⟩ := hcur
    have hne := outputSent_decodesTo_ne_nil cur curnode ⟨is1, hc⟩
    rw [show fuel + (([] : List Str).length + 1) = fuel + 1 from rfl,
      outputSent_extractLoop_round _ ⟨_, false, false⟩ is1 _ _ curnode rfl hne hc]
    have hb : textOfLines [] ++ rest = rest := by simp [textOfLines]
    rw [hb, getline_of_good ⟨rest, false, false⟩ cur [] '\n' rfl]
    rfl
  | cons l ls ih =>
    intro nodes cur curnode sent fuel rest hdec hnl hcur
    cases hdec with
    | cons hl hls =>
      rename_i n ns
      obtain ⟨is1, hc⟩ := hcur
      have hne := outputSent_decodesTo_ne_nil cur curnode ⟨is1, hc⟩
      have hg := getline_delim '\n' l (textOfLines ls ++ rest) cur
        (hnl l (List.mem_cons_self _ _))
      have hrec := ih ns l n (sent ++ [curnode]) fuel rest hls
        (fun m hm => hnl m (List.mem_cons_of_mem _ hm)) hl
      rw [show fuel + ((l :: ls).length + 1) = (fuel + (ls.length + 1)) + 1 from rfl,
        outputSent_extractLoop_round _ ⟨_, false, false⟩ is1 _ _ curnode rfl hne hc,
        textOfLines_cons, hg, hrec]
      simp

/-- The loop of the input reader, entered with a line that decodes and with
further lines that decode next in the stream, appends the decoded tokens and
goes on with what follows the lines. -/
theorem inputSent_extractLoop_lines (lines : List Str) :
    ∀ (nodes : List CCoNLLInputNode) (cur : Str) (curnode : CCoNLLInputNode)
      (sent : CCoNLLInput) (fuel : Nat) (rest : Str),
      List.Forall₂ CCoNLLInput.DecodesTo lines nodes →
      (∀ l ∈ lines, lstrip l ≠ [] ∧ '\n' ∉ l) →
      CCoNLLInput.DecodesTo cur curnode → lstrip cur ≠ [] →
      CCoNLLInput.extractLoop (fuel + (lines.length + 1))
          { buf := textOfLines lines ++ rest, eof := false, fail := false } cur sent
        = CCoNLLInput.extractLoop fuel (getline (IStream.ofStr rest) [] '\n').1
            (getline (IStream.ofStr rest) [] '\n').2 (sent ++ curnode :: nodes) := by
  induction lines with
  | nil =>
    intro nodes cur curnode sent fuel rest hdec _ hcur hne
    cases hdec
    obtain ⟨is1, hc⟩ := hcur
    rw [show fuel + (([] : List Str).length + 1) = fuel + 1 from rfl,
      inputSent_extractLoop_round _ ⟨_, false, false⟩ is1 _ _ curnode rfl hne hc]
    have hb : textOfLines [] ++ rest = rest := by simp [textOfLines]
    rw [hb, getline_of_good ⟨rest, false, false⟩ cur [] '\n' rfl]
    rfl
  | cons l ls ih =>
    intro nodes cur curnode sent fuel rest hdec hnl hcur hne
    cases hdec with
    | cons hl hls =>
      rename_i n ns
      obtain ⟨is1, hc⟩ := hcur
      have hg := getline_delim '\n' l (textOfLines ls ++ rest) cur
        (hnl l (List.mem_cons_self _ _)).2
      have hrec := ih ns l n (sent ++ [curnode]) fuel rest hls
        (fun m hm => hnl m (List.mem_cons_of_mem _ hm)) hl (hnl l (List.mem_cons_self _ _)).1
      rw [show fuel + ((l :: ls).length + 1) = (fuel + (ls.length + 1)) + 1 from rfl,
        inputSent_extractLoop_round _ ⟨_, false, false⟩ is1 _ _ curnode rfl hne hc,
        textOfLines_cons, hg, hrec]
      simp

/-- The output reader on lines that decode: the sentence so far is the root
and the decoded tokens, and the loop goes on with what follows the lines. -/
theorem outputSent_extract_lines (lines : List Str) (nodes : List CCoNLLOutputNode)
    (rest : Str) (prior : CCoNLLOutput)
    (hdec : List.Forall₂ CCoNLLOutput.DecodesTo lines nodes) (hnl : ∀ l ∈ lines, '\n' ∉ l) :
    ∃ fuel, CCoNLLOutput.extract (IStream.ofStr (textOfLines lines ++ rest)) prior
      = CCoNLLOutput.extractLoop (fuel + 2) (getline (IStream.ofStr rest) [] '\n').1
          (getline (IStream.ofStr rest) [] '\n').2 (CCoNLLOutput.root :: nodes) := by
  cases hdec with
  | nil =>
    refine ⟨(getline (IStream.ofStr rest) [] '\n').1.buf.length + 1, ?_⟩
    have hb : textOfLines [] ++ rest = rest := by simp [textOfLines]
    rw [hb]
    rfl
  | cons hl hls =>
    rename_i l n ls ns
    have hg := getline_delim '\n' l (textOfLines ls ++ rest) []
      (hnl l (List.mem_cons_self _ _))
    refine ⟨(textOfLines ls ++ rest).length + 1, ?_⟩
    have hunroll := outputSent_extractLoop_lines ls ns l n (CCoNLLOutput.clear prior)
      ((textOfLines ls ++ rest).length + 1 + 2) rest hls
      (fun m hm => hnl m (List.mem_cons_of_mem _ hm)) hl
    have hbound := outputSent_extractLoop_bound ((textOfLines ls ++ rest).length + 3)
      { buf := textOfLines ls ++ rest, eof := false, fail := false } l
      (CCoNLLOutput.clear prior) (ls.length + 1) (rounds_le _)
    simp only [CCoNLLOutput.extract, IStream.ofStr, textOfLines_cons, hg]
    rw [← hbound, hunroll]
    rfl

/-- The input reader on lines that decode: the sentence so far is the root and
the decoded tokens, and the loop goes on with what follows the lines. -/
theorem inputSent_extract_lines (lines : List Str) (nodes : List CCoNLLInputNode)
    (rest : Str) (prior : CCoNLLInput)
    (hdec : List.Forall₂ CCoNLLInput.DecodesTo lines nodes)
    (hnl : ∀ l ∈ lines, lstrip l ≠ [] ∧ '\n' ∉ l) :
    ∃ fuel, CCoNLLInput.extract (IStream.ofStr (textOfLines lines ++ rest)) prior
      = CCoNLLInput.extractLoop (fuel + 2) (getline (IStream.ofStr rest) [] '\n').1
          (getline (IStream.ofStr rest) [] '\n').2 (CCoNLLInput.root :: nodes) := by
  cases hdec with
  | nil =>
    refine ⟨(getline (IStream.ofStr rest) [] '\n').1.buf.length + 1, ?_⟩
    have hb : textOfLines [] ++ rest = rest := by simp [textOfLines]
    rw [hb]
    rfl
  | cons hl hls =>
    rename_i l n ls ns
    have hg := getline_delim '\n' l (textOfLines ls ++ rest) []
      (hnl l (List.mem_cons_self _ _)).2
    refine ⟨(textOfLines ls ++ rest).length + 1, ?_⟩
    have hunroll := inputSent_extractLoop_lines ls ns l n (CCoNLLInput.clear prior)
      ((textOfLines ls ++ rest).length + 1 + 2) rest hls
      (fun m hm => hnl m (List.mem_cons_of_mem _ hm)) hl (hnl l (List.mem_cons_self _ _)).1
    have hbound := inputSent_extractLoop_bound ((textOfLines ls ++ rest).length + 3)
      { buf := textOfLines ls ++ rest, eof := false, fail := false } l
      (CCoNLLInput.clear prior) (ls.length + 1) (rounds_le _)
    simp only [CCoNLLInput.extract, IStream.ofStr, textOfLines_cons, hg]
    rw [← hbound, hunroll]
    rfl

/-! ## How the reader loops end -/

theorem getline_after_eof (line : Str) (delim : Char) :
    getline { buf := [], eof := true, fail := false } line delim
      = ({ buf := [], eof := true, fail := true }, line) := by
  simp [getline, IStream.good]

/-- The output reader stops at an empty line and leaves what follows it. -/
theorem outputSent_finish_blank (fuel : Nat) (sent : CCoNLLOutput) (tail : Str) :
    CCoNLLOutput.extractLoop (fuel + 2) (getline (IStream.ofStr ('\n' :: tail)) [] '\n').1
        (getline (IStream.ofStr ('\n' :: tail)) [] '\n').2 sent
      = .ok ({ buf := tail, eof := false, fail := false }, sent) := by
  rw [IStream.ofStr, getline_nil_newline]
  exact outputSent_extractLoop_stop _ _ _ _ (by rfl)

/-- The output reader stops at the end of the stream. -/
theorem outputSent_finish_eof (fuel : Nat) (sent : CCoNLLOutput) :
    CCoNLLOutput.extractLoop (fuel + 2) (getline (IStream.ofStr []) [] '\n').1
        (getline (IStream.ofStr []) [] '\n').2 sent
      = .ok ({ buf := [], eof := true, fail := true }, sent) := by
  rw [IStream.ofStr, getline_eof '\n' [] [] (by simp)]
  exact outputSent_extractLoop_stop _ _ _ _ (by rfl)

/-- The output reader decodes a last line that has no newline behind it and
stops at the end of the stream. -/
theorem outputSent_finish_last (fuel : Nat) (sent : CCoNLLOutput) (last : Str)
    (lastnode : CCoNLLOutputNode) (hdec : CCoNLLOutput.DecodesTo last lastnode)
    (hnl : '\n' ∉ last) :
    CCoNLLOutput.extractLoop (fuel + 2) (getline (IStream.ofStr last) [] '\n').1
        (getline (IStream.ofStr last) [] '\n').2 sent
      = .ok ({ buf := [], eof := true, fail := true }, sent ++ [lastnode]) := by
  have hne := outputSent_decodesTo_ne_nil last lastnode hdec
  obtain ⟨is1, hc⟩ := hdec
  rw [IStream.ofStr, getline_eof '\n' last [] hnl, isEmpty_of_ne_nil hne]
  rw [outputSent_extractLoop_round _ ⟨[], true, false⟩ is1 _ _ lastnode rfl hne hc,
    getline_after_eof]
  exact outputSent_extractLoop_stop _ _ _ _ (by rfl)

/-- The input reader stops at a blank line and leaves what follows it. -/
theorem inputSent_finish_blank (fuel : Nat) (sent : CCoNLLInput) (t tail : Str)
    (ht : lstrip t = []) (hnl : '\n' ∉ t) :
    CCoNLLInput.extractLoop (fuel + 2) (getline (IStream.ofStr (t ++ '\n' :: tail)) [] '\n').1
        (getline (IStream.ofStr (t ++ '\n' :: tail)) [] '\n').2 sent
      = .ok ({ buf := tail, eof := false, fail := false }, sent) := by
  rw [IStream.ofStr, getline_delim '\n' t tail [] hnl]
  exact inputSent_extractLoop_stop _ _ _ _ (by simp [ht])

/-- The input reader stops at the end of the stream, also behind trailing
white space. -/
theorem inputSent_finish_eof (fuel : Nat) (sent : CCoNLLInput) (t : Str)
    (ht : lstrip t = []) (hnl : '\n' ∉ t) :
    CCoNLLInput.extractLoop (fuel + 2) (getline (IStream.ofStr t) [] '\n').1
        (getline (IStream.ofStr t) [] '\n').2 sent
      = .ok ({ buf := [], eof := true, fail := t.isEmpty }, sent) := by
  rw [IStream.ofStr, getline_eof '\n' t [] hnl]
  exact inputSent_extractLoop_stop _ _ _ _ (by simp [ht])

/-- The input reader decodes a last line that has no newline behind it and
stops at the end of the stream. -/
theorem inputSent_finish_last (fuel : Nat) (sent : CCoNLLInput) (last : Str)
    (lastnode : CCoNLLInputNode) (hdec : CCoNLLInput.DecodesTo last lastnode)
    (hne : lstrip last ≠ []) (hnl : '\n' ∉ last) :
    CCoNLLInput.extractLoop (fuel + 2) (getline (IStream.ofStr last) [] '\n').1
        (getline (IStream.ofStr last) [] '\n').2 sent
      = .ok ({ buf := [], eof := true, fail := true }, sent ++ [lastnode]) := by
  have hne2 : last ≠ [] := by
    rintro rfl
    exact hne rfl
  obtain ⟨is1, hc⟩ := hdec
  rw [IStream.ofStr, getline_eof '\n' last [] hnl, isEmpty_of_ne_nil hne2]
  rw [inputSent_extractLoop_round _ ⟨[], true, false⟩ is1 _ _ lastnode rfl hne hc,
    getline_after_eof]
  exact inputSent_extractLoop_stop _ _ _ _ (by rfl)

/-- The sentence a reader loop returns starts with the sentence it was entered
with. -/
theorem outputSent_extractLoop_prefix (fuel : Nat) :
    ∀ (is : IStream) (line : Str) (sent : CCoNLLOutput) (r : IStream × CCoNLLOutput),
      CCoNLLOutput.extractLoop fuel is line sent = .ok r → ∃ more, r.2 = sent ++ more := by
  induction fuel with
  | zero =>
    intro is line sent r h
    rw [CCoNLLOutput.extractLoop] at h
    exact Except.noConfusion h
  | succ f ih =>
    intro is line sent r h
    rw [CCoNLLOutput.extractLoop] at h
    by_cases hc : (is.ok && !line.isEmpty) = true
    · simp only [hc, if_true] at h
      cases hdec : CCoNLLOutputNode.extract (IStream.ofStr line) CCoNLLOutputNode.default with
      | error msg =>
        rw [hdec] at h
        exact Except.noConfusion h
      | ok x =>
        rw [hdec] at h
        simp only [bind, Except.bind] at h
        obtain ⟨more, hm⟩ := ih _ _ _ r h
        exact ⟨x.2 :: more, by rw [hm]; simp⟩
    · simp only [hc, Bool.false_eq_true, if_false, pure, Except.pure,
        Except.ok.injEq] at h
      exact ⟨[], by rw [← h]; simp⟩

/-- The sentence the input reader loop returns starts with the sentence it was
entered with. -/
theorem inputSent_extractLoop_prefix (fuel : Nat) :
    ∀ (is : IStream) (line : Str) (sent : CCoNLLInput) (r : IStream × CCoNLLInput),
      CCoNLLInput.extractLoop fuel is line sent = .ok r → ∃ more, r.2 = sent ++ more := by
  induction fuel with
  | zero =>
    intro is line sent r h
    rw [CCoNLLInput.extractLoop] at h
    exact Except.noConfusion h
  | succ f ih =>
    intro is line sent r h
    rw [CCoNLLInput.extractLoop] at h
    by_cases hc : (is.ok && !(lstrip line).isEmpty) = true
    · simp only [hc, if_true] at h
      cases hdec : CCoNLLInputNode.extract (IStream.ofStr line) CCoNLLInputNode.default with
      | error msg =>
        rw [hdec] at h
        exact Except.noConfusion h
      | ok x =>
        rw [hdec] at h
        simp only [bind, Except.bind] at h
        obtain ⟨more, hm⟩ := ih _ _ _ r h
        exact ⟨x.2 :: more, by rw [hm]; simp⟩
    · simp only [hc, Bool.false_eq_true, if_false, pure, Except.pure,
        Except.ok.injEq] at h
      exact ⟨[], by rw [← h]; simp⟩

/-- The id of a decoded input token is the integer read from the first column
of its line. -/
theorem inputSent_id_of_decodesTo (line : Str) (node : CCoNLLInputNode)
    (h : CCoNLLInput.DecodesTo line node) : node.id = idOfLine line := by
  obtain ⟨is1, h⟩ := h
  obtain ⟨f0, f1, f2, f3, f4, f5, rest, hF, h0, h1, h2, h3, h4, h5⟩ :=
    inputNode_extract_inv _ _ _ h
  obtain ⟨is2, hok, -⟩ := inputNode_extract_ok _ CCoNLLInputNode.default _ _ _ _ _ _ _ hF
    h0 h1 h2 h3 h4 h5
  rw [hok] at h
  simp only [Except.ok.injEq, Prod.mk.injEq] at h
  rw [fields_ofStr] at hF
  rw [← h.2, idOfLine, hF]
  rfl

/-- The id of a decoded output token is the integer read from the first column
of its line. -/
theorem outputSent_id_of_decodesTo (line : Str) (node : CCoNLLOutputNode)
    (h : CCoNLLOutput.DecodesTo line node) : node.id = idOfLine line := by
  obtain ⟨is1, h⟩ := h
  obtain ⟨f0, f1, f2, f3, f4, f5, f6, f7, f8, f9, rest, hF, h0, h1, h2, h3, h4, h5, h6, h7,
    h8, h9⟩ := outputNode_extract_inv _ _ _ h
  obtain ⟨is2, hok, -⟩ := outputNode_extract_ok _ CCoNLLOutputNode.default _ _ _ _ _ _ _ _ _
    _ _ hF h0 h1 h2 h3 h4 h5 h6 h7 h8 h9
  rw [hok] at h
  simp only [Except.ok.injEq, Prod.mk.injEq] at h
  rw [fields_ofStr] at hF
  rw [← h.2, idOfLine, hF]
  rfl

theorem inputSent_forall2_of_decodes (lines : List Str)
    (h : ∀ l ∈ lines, ∃ n, CCoNLLInput.DecodesTo l n) :
    ∃ nodes, List.Forall₂ CCoNLLInput.DecodesTo lines nodes := by
  induction lines with
  | nil => exact ⟨[], List.Forall₂.nil⟩
  | cons l ls ih =>
    obtain ⟨n, hn⟩ := h l (List.mem_cons_self _ _)
    obtain ⟨ns, hns⟩ := ih (fun m hm => h m (List.mem_cons_of_mem _ hm))
    exact ⟨n :: ns, List.Forall₂.cons hn hns⟩

theorem outputSent_forall2_of_decodes (lines : List Str)
    (h : ∀ l ∈ lines, ∃ n, CCoNLLOutput.DecodesTo l n) :
    ∃ nodes, List.Forall₂ CCoNLLOutput.DecodesTo lines nodes := by
  induction lines with
  | nil => exact ⟨[], List.Forall₂.nil⟩
  | cons l ls ih =>
    obtain ⟨n, hn⟩ := h l (List.mem_cons_self _ _)
    obtain ⟨ns, hns⟩ := ih (fun m hm => h m (List.mem_cons_of_mem _ hm))
    exact ⟨n :: ns, List.Forall₂.cons hn hns⟩

theorem inputSent_ids_of_forall2 (lines : List Str) (nodes : List CCoNLLInputNode)
    (h : List.Forall₂ CCoNLLInput.DecodesTo lines nodes) :
    nodes.map (fun n => n.id) = lines.map idOfLine := by
  induction h with
  | nil => rfl
  | cons hl _ ih => simp only [List.map_cons, ih, inputSent_id_of_decodesTo _ _ hl]

theorem outputSent_ids_of_forall2 (lines : List Str) (nodes : List CCoNLLOutputNode)
    (h : List.Forall₂ CCoNLLOutput.DecodesTo lines nodes) :
    nodes.map (fun n => n.id) = lines.map idOfLine := by
  induction h with
  | nil => rfl
  | cons hl _ ih => simp only [List.map_cons, ih, outputSent_id_of_decodesTo _ _ hl]

/-! ## The output reader on a line that is not empty -/

/-- C1. Output round trip: for every output sentence made of the root
placeholder followed by tokens whose seven string fields are non-empty and
free of tabs and newlines (with any `int` values for id, head and phead, the
sentinel included), the sentence writer succeeds, and the sentence reader
applied to the written text, whatever the container held before, succeeds and
yields the very same sentence. -/
theorem output_round_trip (tokens : List CCoNLLOutputNode) (prior : CCoNLLOutput)
    (hv : ∀ n ∈ tokens, n.IntFields ∧ n.ValidText) :
    ∃ text is1, CCoNLLOutput.insert [] (CCoNLLOutput.root :: tokens) = .ok text
      ∧ CCoNLLOutput.extract (IStream.ofStr text) prior
          = .ok (is1, CCoNLLOutput.root :: tokens) := by
  refine ⟨_, ⟨[], false, false⟩, outputSent_insert_eq [] _, ?_⟩
  simp only [List.nil_append, List.drop_succ_cons, List.drop_zero,
    List.append_assoc, List.singleton_append]
  exact outputSent_extract_written tokens prior [] hv

/-- Witness for C1: a sentence of two tokens, one of them with head and phead
equal to the sentinel. -/
theorem output_round_trip_witness :
    ∃ text is1,
      CCoNLLOutput.insert [] (CCoNLLOutput.root ::
          [{ id := 1, word := "The".toList, «lemma» := "the".toList, ctag := "DT".toList,
             tag := "DT".toList, feats := "_".toList, head := 2, label := "NMOD".toList,
             phead := 7, plabel := "x y".toList },
           { id := 2, word := "dog".toList, «lemma» := "dog".toList, ctag := "NN".toList,
             tag := "NN".toList, feats := "_".toList, head := DEPENDENCY_LINK_NO_HEAD,
             label := "ROOT".toList, phead := DEPENDENCY_LINK_NO_HEAD,
             plabel := "_".toList }]) = .ok text
      ∧ CCoNLLOutput.extract (IStream.ofStr text) [] = .ok (is1, CCoNLLOutput.root ::
          [{ id := 1, word := "The".toList, «lemma» := "the".toList, ctag := "DT".toList,
             tag := "DT".toList, feats := "_".toList, head := 2, label := "NMOD".toList,
             phead := 7, plabel := "x y".toList },
           { id := 2, word := "dog".toList, «lemma» := "dog".toList, ctag := "NN".toList,
             tag := "NN".toList, feats := "_".toList, head := DEPENDENCY_LINK_NO_HEAD,
             label := "ROOT".toList, phead := DEPENDENCY_LINK_NO_HEAD,
             plabel := "_".toList }]) :=
  output_round_trip _ [] (by decide)

/-- C2. Input round trip: for every input sentence made of the root
placeholder followed by tokens whose five string fields are non-empty and free
of tabs and newlines (with any `int` value for id), the sentence writer
succeeds, and the sentence reader applied to the written text, whatever the
container held before, succeeds and yields the very same sentence. -/
theorem input_round_trip (tokens : List CCoNLLInputNode) (prior : CCoNLLInput)
    (hv : ∀ n ∈ tokens, IsCInt n.id ∧ n.ValidText) :
    ∃ text is1, CCoNLLInput.insert [] (CCoNLLInput.root :: tokens) = .ok text
      ∧ CCoNLLInput.extract (IStream.ofStr text) prior
          = .ok (is1, CCoNLLInput.root :: tokens) := by
  refine ⟨_, ⟨[], false, false⟩, inputSent_insert_eq [] _, ?_⟩
  simp only [List.nil_append, List.drop_succ_cons, List.drop_zero,
    List.append_assoc, List.singleton_append]
  exact inputSent_extract_written tokens prior [] hv

/-- Witness for C2: the sentence of the line `1 The the DT DT _` and a second
token with a negative id. -/
theorem input_round_trip_witness :
    ∃ text is1,
      CCoNLLInput.insert [] (CCoNLLInput.root ::
          [{ id := 1, word := "The".toList, «lemma» := "the".toList, ctag := "DT".toList,
             tag := "DT".toList, feats := "_".toList },
           { id := -3, word := "dog".toList, «lemma» := "dog".toList, ctag := "NN".toList,
             tag := "NN".toList, feats := "a|b".toList }]) = .ok text
      ∧ CCoNLLInput.extract (IStream.ofStr text) [] = .ok (is1, CCoNLLInput.root ::
          [{ id := 1, word := "The".toList, «lemma» := "the".toList, ctag := "DT".toList,
             tag := "DT".toList, feats := "_".toList },
           { id := -3, word := "dog".toList, «lemma» := "dog".toList, ctag := "NN".toList,
             tag := "NN".toList, feats := "a|b".toList }]) :=
  input_round_trip _ [] (by decide)

/-! ## The token codec -/

/-- C3. The phead sentinel: the output encoder writes its ten column texts
joined by tabs, and the ninth is the one-character text `_` when phead is the
sentinel and the decimal numeral of phead otherwise; when the string fields
are free of tabs this is the ninth tab-separated column of the written line.
Conversely the output decoder, on a line of exactly ten non-empty
tab-separated columns whose ninth is `_`, succeeds and sets phead to the
sentinel. -/
theorem phead_sentinel_symmetry (os : Str) (node start : CCoNLLOutputNode) (line : Str) :
    CCoNLLOutputNode.insert os node
        = os ++ ['\t'].intercalate
            [intToStr node.id, node.word, node.«lemma», node.ctag, node.tag, node.feats,
             intToStr node.head, node.label,
             if node.phead = DEPENDENCY_LINK_NO_HEAD then ['_'] else intToStr node.phead,
             node.plabel]
    ∧ (node.TabFree →
        ((CCoNLLOutputNode.insert [] node).splitOn '\t').length = 10
        ∧ ((CCoNLLOutputNode.insert [] node).splitOn '\t')[8]?
            = some (if node.phead = DEPENDENCY_LINK_NO_HEAD then ['_']
                    else intToStr node.phead))
    ∧ ((line.splitOn '\t').length = 10 → (∀ f ∈ line.splitOn '\t', f ≠ []) →
        (line.splitOn '\t')[8]? = some ['_'] →
        ∃ is1 t, CCoNLLOutputNode.extract (IStream.ofStr line) start = .ok (is1, t)
          ∧ t.phead = DEPENDENCY_LINK_NO_HEAD) := by
  refine ⟨?_, ?_, ?_⟩
  · rw [outputNode_insert_eq]; rfl
  · rintro ⟨⟨w, l, c, t, f⟩, a, p⟩
    rw [outputNode_splitOn_insert node ⟨w, l, c, t, f, a, p⟩]
    exact ⟨rfl, rfl⟩
  · intro hlen hne h8
    have hf := fields_ofStr line
    match hs : line.splitOn '\t', hlen, hne, h8 with
    | [f0, f1, f2, f3, f4, f5, f6, f7, f8, f9], _, hne, h8 =>
      rw [hs] at hf
      simp only [List.mem_cons, List.mem_singleton, List.not_mem_nil, or_false,
        forall_eq_or_imp, forall_eq] at hne
      obtain ⟨h0, h1, h2, h3, h4, h5, h6, h7, h8n, h9⟩ := hne
      obtain ⟨is1, hok, -⟩ := outputNode_extract_ok _ start _ _ _ _ _ _ _ _ _ _ _ hf
        h0 h1 h2 h3 h4 h5 h6 h7 h8n h9
      refine ⟨is1, _, hok, ?_⟩
      have : f8 = ['_'] := by simpa using h8
      simp [this]

/-- Witness for C3: a token with phead equal to the sentinel, and the line
`2 dog dog NN NN _ 1 NMOD _ _`. -/
theorem phead_sentinel_symmetry_witness :
    ((CCoNLLOutputNode.insert []
        { id := 2, word := "dog".toList, «lemma» := "dog".toList, ctag := "NN".toList,
          tag := "NN".toList, feats := "_".toList, head := 1, label := "NMOD".toList,
          phead := DEPENDENCY_LINK_NO_HEAD, plabel := "_".toList }).splitOn '\t')[8]?
      = some ['_']
    ∧ ∃ is1 t, CCoNLLOutputNode.extract
          (IStream.ofStr "2\tdog\tdog\tNN\tNN\t_\t1\tNMOD\t_\t_".toList)
          CCoNLLOutputNode.default = .ok (is1, t)
        ∧ t.phead = DEPENDENCY_LINK_NO_HEAD :=
  ⟨((phead_sentinel_symmetry []
        { id := 2, word := "dog".toList, «lemma» := "dog".toList, ctag := "NN".toList,
          tag := "NN".toList, feats := "_".toList, head := 1, label := "NMOD".toList,
          phead := DEPENDENCY_LINK_NO_HEAD, plabel := "_".toList }
        CCoNLLOutputNode.default []).2.1 (by decide)).2,
   (phead_sentinel_symmetry [] CCoNLLOutputNode.default CCoNLLOutputNode.default
        "2\tdog\tdog\tNN\tNN\t_\t1\tNMOD\t_\t_".toList).2.2
      (by decide) (by decide) (by decide)⟩

/-- C4. The head column: the output encoder writes its ten column texts joined
by tabs, and the seventh is always the decimal numeral of head, which is never
the text `_`; when the string fields are free of tabs this is the seventh
tab-separated column of the written line.  So a token with head and phead both
equal to the sentinel is written with the numeral `-1` in column seven and `_`
in column nine. -/
theorem head_always_numeric (os : Str) (node : CCoNLLOutputNode) :
    CCoNLLOutputNode.insert os node
        = os ++ ['\t'].intercalate
            [intToStr node.id, node.word, node.«lemma», node.ctag, node.tag, node.feats,
             intToStr node.head, node.label,
             if node.phead = DEPENDENCY_LINK_NO_HEAD then ['_'] else intToStr node.phead,
             node.plabel]
    ∧ intToStr node.head ≠ ['_']
    ∧ (node.TabFree →
        ((CCoNLLOutputNode.insert [] node).splitOn '\t')[6]? = some (intToStr node.head))
    ∧ (node.TabFree → node.head = DEPENDENCY_LINK_NO_HEAD →
        node.phead = DEPENDENCY_LINK_NO_HEAD →
        ((CCoNLLOutputNode.insert [] node).splitOn '\t')[6]? = some "-1".toList
        ∧ ((CCoNLLOutputNode.insert [] node).splitOn '\t')[8]? = some ['_']) := by
  refine ⟨?_, intToStr_ne_underscore _, ?_, ?_⟩
  · rw [outputNode_insert_eq]; rfl
  · rintro ⟨⟨w, l, c, t, f⟩, a, p⟩
    rw [outputNode_splitOn_insert node ⟨w, l, c, t, f, a, p⟩]
    rfl
  · rintro ⟨⟨w, l, c, t, f⟩, a, p⟩ hh hp
    rw [outputNode_splitOn_insert node ⟨w, l, c, t, f, a, p⟩]
    have hnum : intToStr DEPENDENCY_LINK_NO_HEAD = "-1".toList := by decide
    simp [CCoNLLOutputNode.columns, CCoNLLInputNode.columns, pheadText, hh, hp, hnum]

/-- Witness for C4: a token with head and phead both equal to the sentinel. -/
theorem head_always_numeric_witness :
    ((CCoNLLOutputNode.insert []
        { id := 2, word := "dog".toList, «lemma» := "dog".toList, ctag := "NN".toList,
          tag := "NN".toList, feats := "_".toList, head := DEPENDENCY_LINK_NO_HEAD,
          label := "NMOD".toList, phead := DEPENDENCY_LINK_NO_HEAD,
          plabel := "_".toList }).splitOn '\t')[6]? = some "-1".toList
    ∧ ((CCoNLLOutputNode.insert []
        { id := 2, word := "dog".toList, «lemma» := "dog".toList, ctag := "NN".toList,
          tag := "NN".toList, feats := "_".toList, head := DEPENDENCY_LINK_NO_HEAD,
          label := "NMOD".toList, phead := DEPENDENCY_LINK_NO_HEAD,
          plabel := "_".toList }).splitOn '\t')[8]? = some ['_'] :=
  (head_always_numeric []
      { id := 2, word := "dog".toList, «lemma» := "dog".toList, ctag := "NN".toList,
        tag := "NN".toList, feats := "_".toList, head := DEPENDENCY_LINK_NO_HEAD,
        label := "NMOD".toList, phead := DEPENDENCY_LINK_NO_HEAD,
        plabel := "_".toList }).2.2.2 (by decide) rfl rfl

/-- C5. Missing fields: the input decoder raises the error of one of its
assertions on every line that has fewer than six tab-separated columns or an
empty column among the first six, the empty line included; the output decoder
does so for its ten columns. -/
theorem missing_field_rejected (line : Str) (istart : CCoNLLInputNode)
    (ostart : CCoNLLOutputNode) :
    (((line.splitOn '\t').length < 6 ∨ ∃ f ∈ (line.splitOn '\t').take 6, f = []) →
        ∃ msg, CCoNLLInputNode.extract (IStream.ofStr line) istart = .error msg)
    ∧ (((line.splitOn '\t').length < 10 ∨ ∃ f ∈ (line.splitOn '\t').take 10, f = []) →
        ∃ msg, CCoNLLOutputNode.extract (IStream.ofStr line) ostart = .error msg)
    ∧ (∃ msg, CCoNLLInputNode.extract (IStream.ofStr []) istart = .error msg)
    ∧ (∃ msg, CCoNLLOutputNode.extract (IStream.ofStr []) ostart = .error msg) := by
  refine ⟨?_, ?_, ?_, ?_⟩
  · intro h
    apply except_error_of_not_ok
    rw [inputNode_extract_ok_iff]
    rintro ⟨hlen, hne⟩
    rcases h with h | ⟨f, hf, rfl⟩
    · omega
    · exact hne _ hf rfl
  · intro h
    apply except_error_of_not_ok
    rw [outputNode_extract_ok_iff]
    rintro ⟨hlen, hne⟩
    rcases h with h | ⟨f, hf, rfl⟩
    · omega
    · exact hne _ hf rfl
  · apply except_error_of_not_ok
    rw [inputNode_extract_ok_iff]
    rintro ⟨hlen, -⟩
    revert hlen
    decide
  · apply except_error_of_not_ok
    rw [outputNode_extract_ok_iff]
    rintro ⟨hlen, -⟩
    revert hlen
    decide

/-- Witness for C5: a line with only three tab-separated fields is rejected by
the input decoder, and a ten-column line whose label column is empty by the
output decoder. -/
theorem missing_field_rejected_witness :
    (∃ msg, CCoNLLInputNode.extract (IStream.ofStr "1\tThe\tthe".toList)
        CCoNLLInputNode.default = .error msg)
    ∧ (∃ msg, CCoNLLOutputNode.extract
        (IStream.ofStr "2\tdog\tdog\tNN\tNN\t_\t1\t\t_\t_".toList)
        CCoNLLOutputNode.default = .error msg) :=
  ⟨(missing_field_rejected "1\tThe\tthe".toList CCoNLLInputNode.default
      CCoNLLOutputNode.default).1 (Or.inl (by decide)),
   (missing_field_rejected "2\tdog\tdog\tNN\tNN\t_\t1\t\t_\t_".toList CCoNLLInputNode.default
      CCoNLLOutputNode.default).2.1 (Or.inr ⟨[], by decide, rfl⟩)⟩

/-- Counterexample to C6: the output line whose head column is `abc` and the
input line whose id column is `x` are both decoded into a token, no error is
raised. -/
theorem invalid_integer_counterexample :
    (∃ is1 t, CCoNLLOutputNode.extract
        (IStream.ofStr "1\tdog\tdog\tNN\tNN\t_\tabc\tNMOD\t_\t_".toList)
        CCoNLLOutputNode.default = .ok (is1, t)
      ∧ t.word = "dog".toList ∧ t.label = "NMOD".toList)
    ∧ (∃ is1 t, CCoNLLInputNode.extract (IStream.ofStr "x\tdog\tdog\tNN\tNN\t_".toList)
        CCoNLLInputNode.default = .ok (is1, t)
      ∧ t.word = "dog".toList) :=
  ⟨⟨_, _, rfl, rfl, rfl⟩, ⟨_, _, rfl, rfl⟩⟩

/-- C6, amended. The content of the id, head and phead columns never makes a
decoder fail: the input decoder succeeds on a line exactly when its first six
tab-separated columns are there and not empty, and the output decoder exactly
when its first ten are, whatever those columns contain. -/
theorem integer_columns_not_validated (line : Str) (istart : CCoNLLInputNode)
    (ostart : CCoNLLOutputNode) :
    ((∃ r, CCoNLLInputNode.extract (IStream.ofStr line) istart = .ok r)
      ↔ (6 ≤ (line.splitOn '\t').length ∧ ∀ f ∈ (line.splitOn '\t').take 6, f ≠ []))
    ∧ ((∃ r, CCoNLLOutputNode.extract (IStream.ofStr line) ostart = .ok r)
      ↔ (10 ≤ (line.splitOn '\t').length ∧ ∀ f ∈ (line.splitOn '\t').take 10, f ≠ [])) :=
  ⟨inputNode_extract_ok_iff line istart, outputNode_extract_ok_iff line ostart⟩

/-! ## Sentence containers -/

/-- C7. Root invariant: a freshly constructed container, and a container after
`clear` whatever it held, has length one and its only element is the root
placeholder with id 0, empty word and lemma, ctag and tag `-BEGIN-`, empty
feats and, in the output container, head and phead equal to the sentinel and
empty labels. -/
theorem root_invariant (prior : CCoNLLInput) (priorOut : CCoNLLOutput) :
    CCoNLLInput.new
        = [{ id := 0, word := [], «lemma» := [], ctag := "-BEGIN-".toList,
             tag := "-BEGIN-".toList, feats := [] }]
    ∧ CCoNLLInput.clear prior
        = [{ id := 0, word := [], «lemma» := [], ctag := "-BEGIN-".toList,
             tag := "-BEGIN-".toList, feats := [] }]
    ∧ CCoNLLOutput.new
        = [{ id := 0, word := [], «lemma» := [], ctag := "-BEGIN-".toList,
             tag := "-BEGIN-".toList, feats := [], head := DEPENDENCY_LINK_NO_HEAD,
             label := [], phead := DEPENDENCY_LINK_NO_HEAD, plabel := [] }]
    ∧ CCoNLLOutput.clear priorOut
        = [{ id := 0, word := [], «lemma» := [], ctag := "-BEGIN-".toList,
             tag := "-BEGIN-".toList, feats := [], head := DEPENDENCY_LINK_NO_HEAD,
             label := [], phead := DEPENDENCY_LINK_NO_HEAD, plabel := [] }]
    ∧ CCoNLLInput.new.length = 1 ∧ (CCoNLLInput.clear prior).length = 1
    ∧ CCoNLLOutput.new.length = 1 ∧ (CCoNLLOutput.clear priorOut).length = 1 :=
  ⟨rfl, rfl, rfl, rfl, rfl, rfl, rfl, rfl⟩

/-- C9. Layout of a written sentence: for a container of a first element and
`N` further ones, either sentence writer emits the encoded lines of the
further elements in order, each followed by one newline, and then exactly one
more newline; the first element is never written, so a root-only sentence is
written as a single newline; and when the fields contain no newline the text
splits at newlines into the `N` encoded lines, one empty line and the empty
remainder behind the last newline. -/
theorem sentence_layout (os : Str) (root : CCoNLLOutputNode) (tokens : List CCoNLLOutputNode)
    (iroot : CCoNLLInputNode) (itokens : List CCoNLLInputNode) :
    CCoNLLOutput.insert os (root :: tokens)
        = .ok (os ++ (tokens.map (fun n => CCoNLLOutputNode.insert [] n ++ ['\n'])).flatten
                ++ ['\n'])
    ∧ CCoNLLInput.insert os (iroot :: itokens)
        = .ok (os ++ (itokens.map (fun n => CCoNLLInputNode.insert [] n ++ ['\n'])).flatten
                ++ ['\n'])
    ∧ CCoNLLOutput.insert os [root] = .ok (os ++ ['\n'])
    ∧ CCoNLLInput.insert os [iroot] = .ok (os ++ ['\n'])
    ∧ ((∀ n ∈ tokens, n.NewlineFree) →
        ∃ text, CCoNLLOutput.insert [] (root :: tokens) = .ok text
          ∧ text.splitOn '\n'
              = tokens.map (fun n => CCoNLLOutputNode.insert [] n) ++ [[], []])
    ∧ ((∀ n ∈ itokens, n.NewlineFree) →
        ∃ text, CCoNLLInput.insert [] (iroot :: itokens) = .ok text
          ∧ text.splitOn '\n'
              = itokens.map (fun n => CCoNLLInputNode.insert [] n) ++ [[], []]) := by
  refine ⟨outputSent_insert_eq os _, inputSent_insert_eq os _, ?_, ?_, ?_, ?_⟩
  · rw [outputSent_insert_eq]; simp [CCoNLLOutput.linesOf]
  · rw [inputSent_insert_eq]; simp [CCoNLLInput.linesOf]
  · intro h
    refine ⟨_, outputSent_insert_eq [] _, ?_⟩
    have hs := splitOn_lines (tokens.map (fun n => CCoNLLOutputNode.insert [] n)) (by
      intro l hl
      obtain ⟨n, hn, rfl⟩ := List.mem_map.1 hl
      exact outputNode_newline_not_mem_insert_of_free n (h n hn))
    rw [List.map_map] at hs
    simpa [CCoNLLOutput.linesOf] using hs
  · intro h
    refine ⟨_, inputSent_insert_eq [] _, ?_⟩
    have hs := splitOn_lines (itokens.map (fun n => CCoNLLInputNode.insert [] n)) (by
      intro l hl
      obtain ⟨n, hn, rfl⟩ := List.mem_map.1 hl
      exact inputNode_newline_not_mem_insert_of_free n (h n hn))
    rw [List.map_map] at hs
    simpa [CCoNLLInput.linesOf] using hs

/-- Witness for C9: the output sentence of the root and one token is written
as the line of the token and a blank line. -/
theorem sentence_layout_witness :
    ∃ text, CCoNLLOutput.insert [] (CCoNLLOutput.root ::
        [{ id := 2, word := "dog".toList, «lemma» := "dog".toList, ctag := "NN".toList,
           tag := "NN".toList, feats := "_".toList, head := 1, label := "NMOD".toList,
           phead := DEPENDENCY_LINK_NO_HEAD, plabel := "_".toList }]) = .ok text
      ∧ text.splitOn '\n'
          = [{ id := 2, word := "dog".toList, «lemma» := "dog".toList, ctag := "NN".toList,
               tag := "NN".toList, feats := "_".toList, head := 1, label := "NMOD".toList,
               phead := DEPENDENCY_LINK_NO_HEAD, plabel := "_".toList }].map
              (fun n => CCoNLLOutputNode.insert [] n) ++ [[], []] :=
  (sentence_layout [] CCoNLLOutput.root _ CCoNLLInput.root []).2.2.2.2.1 (by decide)

/-! ## Conversions -/

/-- Counterexample to C10: an input sentence and a tree of the same length
whose second node carries another word and tag than the sentence; the tree
that comes out has the word and tag of the sentence and so differs from the
tree that went in. -/
theorem conversion_fidelity_counterexample :
    [CCoNLLInput.root,
      { id := 1, word := "a".toList, «lemma» := "a".toList, ctag := "N".toList,
        tag := "N".toList, feats := "_".toList }].length
      = [({ word := [], tag := "-BEGIN-".toList, head := -1 } : CDependencyTreeNode),
          { word := "b".toList, tag := "V".toList, head := 0 }].length
    ∧ convertThrough
        [CCoNLLInput.root,
          { id := 1, word := "a".toList, «lemma» := "a".toList, ctag := "N".toList,
            tag := "N".toList, feats := "_".toList }]
        [{ word := [], tag := "-BEGIN-".toList, head := -1 },
          { word := "b".toList, tag := "V".toList, head := 0 }] []
      = .ok [{ word := [], tag := "-BEGIN-".toList, head := -1 },
          { word := "a".toList, tag := "N".toList, head := 0 }]
    ∧ ([({ word := [], tag := "-BEGIN-".toList, head := -1 } : CDependencyTreeNode),
          { word := "a".toList, tag := "N".toList, head := 0 }]
        ≠ [{ word := [], tag := "-BEGIN-".toList, head := -1 },
          { word := "b".toList, tag := "V".toList, head := 0 }]) :=
  ⟨rfl, rfl, by decide⟩

/-- C10, amended. For every input sentence and every dependency tree of the
same length, a fresh output sentence that takes the input sentence and then
the heads of the tree converts, without error, to a tree of that length whose
node `i` has the head of node `i` of the given tree and the word and tag of
element `i` of the input sentence; it therefore equals the given tree whenever
the words and tags of the tree are those of the input sentence. -/
theorem conversion_fidelity (input : CCoNLLInput) (tree out : CDependencyTree)
    (hlen : input.length = tree.length) :
    convertThrough input tree out
        = .ok (List.zipWith (fun (i : CCoNLLInputNode) (t : CDependencyTreeNode) =>
            ({ word := i.word, tag := i.tag, head := t.head } : CDependencyTreeNode))
            input tree)
    ∧ (input.map (fun i => (i.word, i.tag)) = tree.map (fun t => (t.word, t.tag)) →
        convertThrough input tree out = .ok tree) := by
  have hmain : convertThrough input tree out
      = .ok (List.zipWith (fun (i : CCoNLLInputNode) (t : CDependencyTreeNode) =>
          ({ word := i.word, tag := i.tag, head := t.head } : CDependencyTreeNode))
          input tree) := by
    unfold convertThrough
    simp only [outputSent_fromCoNLLInput_eq, bind, Except.bind]
    rw [outputSent_copyDependencyHeads_eq _ _ (by
      simp [length_vecResize, hlen])]
    simp only []
    rw [outputSent_toDependencyTree_eq]
    rw [List.drop_of_length_le (by simp [length_vecResize, hlen]), List.append_nil,
      map_zipWith_heads _ _ _ (by rw [length_vecResize]) hlen]
  refine ⟨hmain, ?_⟩
  intro hsame
  rw [hmain]
  congr 1
  clear hmain
  induction input generalizing tree with
  | nil =>
    cases tree with
    | nil => rfl
    | cons t ts => simp at hlen
  | cons a as ih =>
    cases tree with
    | nil => simp at hlen
    | cons t ts =>
      simp only [List.map_cons, List.cons.injEq, Prod.mk.injEq] at hsame
      simp only [List.length_cons, Nat.add_right_cancel_iff] at hlen
      obtain ⟨⟨hw, ht⟩, hrest⟩ := hsame
      simp only [List.zipWith_cons_cons, ih ts hlen hrest, hw, ht]

/-- Witness for C10, amended: a sentence of one token and a tree with the same
word and tag come back as the tree. -/
theorem conversion_fidelity_witness :
    convertThrough
        [CCoNLLInput.root,
          { id := 1, word := "a".toList, «lemma» := "a".toList, ctag := "N".toList,
            tag := "N".toList, feats := "_".toList }]
        [{ word := [], tag := "-BEGIN-".toList, head := -1 },
          { word := "a".toList, tag := "N".toList, head := 0 }] []
      = .ok [{ word := [], tag := "-BEGIN-".toList, head := -1 },
          { word := "a".toList, tag := "N".toList, head := 0 }] :=
  (conversion_fidelity _ _ [] rfl).2 rfl

/-- Counterexample to C11: a sentence of two elements and a tree of one node;
`copyDependencyHeads` completes without error and has set the head of the
first element only. -/
theorem length_mismatch_counterexample :
    ([({ word := [], tag := "-BEGIN-".toList, head := 5 } : CDependencyTreeNode)].length
      ≠ [CCoNLLOutput.root,
          ({ id := 1, word := "a".toList, «lemma» := "a".toList, ctag := "N".toList,
             tag := "N".toList, feats := "_".toList, head := 7, label := "L".toList,
             phead := 7, plabel := "L".toList } : CCoNLLOutputNode)].length)
    ∧ CCoNLLOutput.copyDependencyHeads
        [CCoNLLOutput.root,
          { id := 1, word := "a".toList, «lemma» := "a".toList, ctag := "N".toList,
            tag := "N".toList, feats := "_".toList, head := 7, label := "L".toList,
            phead := 7, plabel := "L".toList }]
        [{ word := [], tag := "-BEGIN-".toList, head := 5 }]
      = .ok [{ CCoNLLOutput.root with head := 5 },
          { id := 1, word := "a".toList, «lemma» := "a".toList, ctag := "N".toList,
            tag := "N".toList, feats := "_".toList, head := 7, label := "L".toList,
            phead := 7, plabel := "L".toList }] :=
  ⟨by decide, rfl⟩

/-- C11, amended. `copyDependencyHeads` raises an error (`std::out_of_range`)
exactly when the tree is longer than the sentence.  When the tree is not
longer, shorter trees included, it completes without error: the heads of the
first elements, as many as the tree has nodes, are set from the tree and the
remaining elements are left as they were. -/
theorem length_mismatch (s : CCoNLLOutput) (tree : CDependencyTree) :
    (s.length < tree.length →
        CCoNLLOutput.copyDependencyHeads s tree = .error "std::out_of_range")
    ∧ (tree.length ≤ s.length →
        CCoNLLOutput.copyDependencyHeads s tree
          = .ok (List.zipWith (fun (dst : CCoNLLOutputNode) (src : CDependencyTreeNode) =>
                    { dst with head := src.head }) s tree ++ s.drop tree.length))
    ∧ ((∃ r, CCoNLLOutput.copyDependencyHeads s tree = .ok r)
        ↔ tree.length ≤ s.length) := by
  refine ⟨outputSent_copyDependencyHeads_fail s tree,
    outputSent_copyDependencyHeads_eq s tree, ?_⟩
  constructor
  · rintro ⟨r, hr⟩
    by_contra hn
    rw [outputSent_copyDependencyHeads_fail s tree (by omega)] at hr
    exact Except.noConfusion hr
  · intro hle
    exact ⟨_, outputSent_copyDependencyHeads_eq s tree hle⟩

/-- Witness for C11, amended: a tree of two nodes on the root-only sentence
raises the error. -/
theorem length_mismatch_witness :
    CCoNLLOutput.copyDependencyHeads [CCoNLLOutput.root]
        [{ word := [], tag := "-BEGIN-".toList, head := -1 },
          { word := "a".toList, tag := "N".toList, head := 0 }]
      = .error "std::out_of_range" :=
  (length_mismatch [CCoNLLOutput.root]
    [{ word := [], tag := "-BEGIN-".toList, head := -1 },
      { word := "a".toList, tag := "N".toList, head := 0 }]).1 (by decide)

/-- C12. `fromCoNLLInput` on a fresh container: for every input sentence,
calling `fromCoNLLInput` on a freshly constructed or cleared output sentence
yields, without error, a sentence of the same length in which element `i` has
the id, word, lemma, ctag, tag and feats of element `i` of the input, head and
phead equal to the sentinel and empty label and plabel. -/
theorem fromCoNLLInput_fresh (input : CCoNLLInput) (prior : CCoNLLOutput) :
    CCoNLLOutput.fromCoNLLInput CCoNLLOutput.new input
        = .ok (input.map (fun src =>
            { toCCoNLLInputNode := src, head := DEPENDENCY_LINK_NO_HEAD, label := [],
              phead := DEPENDENCY_LINK_NO_HEAD, plabel := [] }))
    ∧ CCoNLLOutput.fromCoNLLInput (CCoNLLOutput.clear prior) input
        = .ok (input.map (fun src =>
            { toCCoNLLInputNode := src, head := DEPENDENCY_LINK_NO_HEAD, label := [],
              phead := DEPENDENCY_LINK_NO_HEAD, plabel := [] }))
    ∧ (input.map (fun src =>
            ({ toCCoNLLInputNode := src, head := DEPENDENCY_LINK_NO_HEAD, label := [],
               phead := DEPENDENCY_LINK_NO_HEAD, plabel := [] } : CCoNLLOutputNode))).length
        = input.length := by
  have key : CCoNLLOutput.fromCoNLLInput [CCoNLLOutput.root] input
      = .ok (input.map (fun src =>
          { toCCoNLLInputNode := src, head := DEPENDENCY_LINK_NO_HEAD, label := [],
            phead := DEPENDENCY_LINK_NO_HEAD, plabel := [] })) := by
    rw [outputSent_fromCoNLLInput_eq]
    congr 1
    apply List.ext_getElem?
    intro i
    rw [List.getElem?_zipWith, List.getElem?_map]
    cases hin : input[i]? with
    | none =>
      cases (vecResize [CCoNLLOutput.root] input.length CCoNLLOutputNode.default)[i]? <;> rfl
    | some src =>
      have hi := getElem?_lt_of_eq_some hin
      by_cases h0 : i < [CCoNLLOutput.root].length
      · rw [getElem?_vecResize_lt _ _ _ _ hi h0]
        have : i = 0 := by simpa using h0
        subst this
        rfl
      · rw [getElem?_vecResize_ge _ _ _ _ hi (by omega)]
        rfl
  exact ⟨key, key, by simp⟩

/-- C13. `toDependencyTree`: for every output sentence and whatever the target
tree held, the call leaves, without error, a tree with as many nodes as the
sentence has elements, the root included, whose node `i` is the word, tag and
head of element `i`; the sentence is only read. -/
theorem toDependencyTree_nodes (s : CCoNLLOutput) (out : CDependencyTree) :
    CCoNLLOutput.toDependencyTree s out
        = .ok (s.map (fun n => { word := n.word, tag := n.tag, head := n.head }))
    ∧ (s.map (fun n =>
          ({ word := n.word, tag := n.tag, head := n.head } : CDependencyTreeNode))).length
        = s.length
    ∧ ∀ i : Nat, (s.map (fun n =>
          ({ word := n.word, tag := n.tag, head := n.head } : CDependencyTreeNode)))[i]?
        = (s[i]?).map (fun (n : CCoNLLOutputNode) =>
            ({ word := n.word, tag := n.tag, head := n.head } : CDependencyTreeNode)) :=
  ⟨outputSent_toDependencyTree_eq s out, by simp, fun i => by simp⟩

/-- C19. `copyDependencyHeads` on a tree of the same length: the call
completes without error, the length of the sentence is unchanged, and element
`i`, the root included, is what it was with its head replaced by the head of
node `i` of the tree; all other fields are unchanged. -/
theorem copyDependencyHeads_effect (s : CCoNLLOutput) (tree : CDependencyTree)
    (hlen : tree.length = s.length) :
    ∃ r, CCoNLLOutput.copyDependencyHeads s tree = .ok r
      ∧ r.length = s.length
      ∧ ∀ (i : Nat) (n : CCoNLLOutputNode) (t : CDependencyTreeNode),
          s[i]? = some n → tree[i]? = some t →
          r[i]? = some ({ id := n.id, word := n.word, «lemma» := n.«lemma», ctag := n.ctag,
                          tag := n.tag, feats := n.feats, head := t.head, label := n.label,
                          phead := n.phead, plabel := n.plabel } : CCoNLLOutputNode) := by
  refine ⟨_, outputSent_copyDependencyHeads_eq s tree (by omega), ?_, ?_⟩
  · simp [hlen]
  · intro i n t hn ht
    rw [List.drop_of_length_le (by omega), List.append_nil, List.getElem?_zipWith, hn, ht]

/-- Witness for C19: the heads of a sentence of two elements are replaced by
those of a tree of two nodes. -/
theorem copyDependencyHeads_effect_witness :
    ∃ r, CCoNLLOutput.copyDependencyHeads
          [CCoNLLOutput.root,
            { id := 1, word := "a".toList, «lemma» := "a".toList, ctag := "N".toList,
              tag := "N".toList, feats := "_".toList, head := 7, label := "L".toList,
              phead := 7, plabel := "L".toList }]
          [{ word := [], tag := "-BEGIN-".toList, head := -1 },
            { word := "a".toList, tag := "N".toList, head := 0 }] = .ok r
      ∧ r.length = [CCoNLLOutput.root,
            ({ id := 1, word := "a".toList, «lemma» := "a".toList, ctag := "N".toList,
               tag := "N".toList, feats := "_".toList, head := 7, label := "L".toList,
               phead := 7, plabel := "L".toList } : CCoNLLOutputNode)].length
      ∧ ∀ (i : Nat) (n : CCoNLLOutputNode) (t : CDependencyTreeNode), [CCoNLLOutput.root,
            ({ id := 1, word := "a".toList, «lemma» := "a".toList, ctag := "N".toList,
               tag := "N".toList, feats := "_".toList, head := 7, label := "L".toList,
               phead := 7, plabel := "L".toList } : CCoNLLOutputNode)][i]? = some n →
          [({ word := [], tag := "-BEGIN-".toList, head := -1 } : CDependencyTreeNode),
            { word := "a".toList, tag := "N".toList, head := 0 }][i]? = some t →
          r[i]? = some ({ id := n.id, word := n.word, «lemma» := n.«lemma», ctag := n.ctag,
                          tag := n.tag, feats := n.feats, head := t.head, label := n.label,
                          phead := n.phead, plabel := n.plabel } : CCoNLLOutputNode) :=
  copyDependencyHeads_effect _ _ rfl

/-- C20. `fromCoNLLInput` keeps the output-only fields of the elements it
finds: for every output sentence and every input sentence the call yields,
without error, a sentence of the length of the input in which an element at an
index below the old length has the id, word, lemma, ctag, tag and feats of the
input element and the head, label, phead and plabel it had before, and an
element at or beyond the old length has those of the input element with head
and phead equal to the sentinel and empty label and plabel. -/
theorem fromCoNLLInput_keeps_output_fields (s : CCoNLLOutput) (input : CCoNLLInput) :
    ∃ r, CCoNLLOutput.fromCoNLLInput s input = .ok r
      ∧ r.length = input.length
      ∧ (∀ (i : Nat) (n : CCoNLLOutputNode) (src : CCoNLLInputNode),
          s[i]? = some n → input[i]? = some src →
          r[i]? = some ({ toCCoNLLInputNode := src, head := n.head, label := n.label,
                          phead := n.phead, plabel := n.plabel } : CCoNLLOutputNode))
      ∧ (∀ (i : Nat) (src : CCoNLLInputNode), s.length ≤ i → input[i]? = some src →
          r[i]? = some ({ toCCoNLLInputNode := src, head := DEPENDENCY_LINK_NO_HEAD,
                          label := [], phead := DEPENDENCY_LINK_NO_HEAD, plabel := [] } :
                        CCoNLLOutputNode)) := by
  refine ⟨_, outputSent_fromCoNLLInput_eq s input, ?_, ?_, ?_⟩
  · simp [length_vecResize]
  · intro i n src hn hsrc
    rw [List.getElem?_zipWith, hsrc,
      getElem?_vecResize_lt _ _ _ _ (getElem?_lt_of_eq_some hsrc) (getElem?_lt_of_eq_some hn),
      hn]
  · intro i src hi hsrc
    rw [List.getElem?_zipWith, hsrc,
      getElem?_vecResize_ge _ _ _ _ (getElem?_lt_of_eq_some hsrc) hi]
    rfl

/-- Witness for C20: a sentence that already holds a token with a head and
labels takes an input sentence of three elements; the token keeps its head and
labels and the new third element has the sentinel. -/
theorem fromCoNLLInput_keeps_output_fields_witness :
    ∃ r, CCoNLLOutput.fromCoNLLInput
          [CCoNLLOutput.root,
            { id := 1, word := "a".toList, «lemma» := "a".toList, ctag := "N".toList,
              tag := "N".toList, feats := "_".toList, head := 7, label := "L".toList,
              phead := 3, plabel := "P".toList }]
          [CCoNLLInput.root,
            { id := 1, word := "x".toList, «lemma» := "x".toList, ctag := "V".toList,
              tag := "V".toList, feats := "_".toList },
            { id := 2, word := "y".toList, «lemma» := "y".toList, ctag := "V".toList,
              tag := "V".toList, feats := "_".toList }] = .ok r
      ∧ r[1]? = some ({ id := 1, word := "x".toList, «lemma» := "x".toList,
                        ctag := "V".toList, tag := "V".toList, feats := "_".toList,
                        head := 7, label := "L".toList, phead := 3,
                        plabel := "P".toList } : CCoNLLOutputNode)
      ∧ r[2]? = some ({ id := 2, word := "y".toList, «lemma» := "y".toList,
                        ctag := "V".toList, tag := "V".toList, feats := "_".toList,
                        head := DEPENDENCY_LINK_NO_HEAD, label := [],
                        phead := DEPENDENCY_LINK_NO_HEAD, plabel := [] } : CCoNLLOutputNode) :=
  match fromCoNLLInput_keeps_output_fields
    [CCoNLLOutput.root,
      { id := 1, word := "a".toList, «lemma» := "a".toList, ctag := "N".toList,
        tag := "N".toList, feats := "_".toList, head := 7, label := "L".toList,
        phead := 3, plabel := "P".toList }]
    [CCoNLLInput.root,
      { id := 1, word := "x".toList, «lemma» := "x".toList, ctag := "V".toList,
        tag := "V".toList, feats := "_".toList },
      { id := 2, word := "y".toList, «lemma» := "y".toList, ctag := "V".toList,
        tag := "V".toList, feats := "_".toList }] with
  | ⟨r, hr, _, h1, h2⟩ => ⟨r, hr, h1 1 _ _ rfl rfl, h2 2 _ (by decide) rfl⟩

/-! ## Sentence aggregation -/

/-- C14. Sentence aggregation: on a stream that holds lines which all decode
(none of them a terminator, none with a newline inside), each ended by a
newline, and then the terminator, the sentence reader yields the root
placeholder followed by the decoded tokens, one per line and in stream order.
The terminator is an empty line for the output reader and a line that is empty
after stripping leading white space for the input reader, or the end of the
stream; the reader consumes the terminator line and leaves what follows it;
and a last line that decodes and has no newline behind it at the end of the
stream is part of the sentence, which is returned without error. -/
theorem sentence_aggregation (olines : List Str) (onodes : List CCoNLLOutputNode)
    (ilines : List Str) (inodes : List CCoNLLInputNode) (t tail : Str)
    (oprior : CCoNLLOutput) (iprior : CCoNLLInput)
    (hodec : List.Forall₂ CCoNLLOutput.DecodesTo olines onodes)
    (honl : ∀ l ∈ olines, '\n' ∉ l)
    (hidec : List.Forall₂ CCoNLLInput.DecodesTo ilines inodes)
    (hinl : ∀ l ∈ ilines, lstrip l ≠ [] ∧ '\n' ∉ l)
    (ht : lstrip t = [] ∧ '\n' ∉ t) :
    CCoNLLOutput.extract (IStream.ofStr (textOfLines olines ++ '\n' :: tail)) oprior
        = .ok ({ buf := tail, eof := false, fail := false }, CCoNLLOutput.root :: onodes)
    ∧ CCoNLLOutput.extract (IStream.ofStr (textOfLines olines)) oprior
        = .ok ({ buf := [], eof := true, fail := true }, CCoNLLOutput.root :: onodes)
    ∧ (∀ (last : Str) (lastnode : CCoNLLOutputNode),
        CCoNLLOutput.DecodesTo last lastnode → '\n' ∉ last →
        CCoNLLOutput.extract (IStream.ofStr (textOfLines olines ++ last)) oprior
          = .ok ({ buf := [], eof := true, fail := true },
                 CCoNLLOutput.root :: (onodes ++ [lastnode])))
    ∧ CCoNLLInput.extract (IStream.ofStr (textOfLines ilines ++ (t ++ '\n' :: tail))) iprior
        = .ok ({ buf := tail, eof := false, fail := false }, CCoNLLInput.root :: inodes)
    ∧ CCoNLLInput.extract (IStream.ofStr (textOfLines ilines ++ t)) iprior
        = .ok ({ buf := [], eof := true, fail := t.isEmpty }, CCoNLLInput.root :: inodes)
    ∧ (∀ (last : Str) (lastnode : CCoNLLInputNode),
        CCoNLLInput.DecodesTo last lastnode → lstrip last ≠ [] → '\n' ∉ last →
        CCoNLLInput.extract (IStream.ofStr (textOfLines ilines ++ last)) iprior
          = .ok ({ buf := [], eof := true, fail := true },
                 CCoNLLInput.root :: (inodes ++ [lastnode]))) := by
  refine ⟨?_, ?_, ?_, ?_, ?_, ?_⟩
  · obtain ⟨fuel, h⟩ := outputSent_extract_lines olines onodes ('\n' :: tail) oprior hodec honl
    rw [h, outputSent_finish_blank]
  · obtain ⟨fuel, h⟩ := outputSent_extract_lines olines onodes [] oprior hodec honl
    rw [List.append_nil] at h
    rw [h, outputSent_finish_eof]
  · intro last lastnode hlast hnl
    obtain ⟨fuel, h⟩ := outputSent_extract_lines olines onodes last oprior hodec honl
    rw [h, outputSent_finish_last _ _ _ _ hlast hnl]
    rfl
  · obtain ⟨fuel, h⟩ :=
      inputSent_extract_lines ilines inodes (t ++ '\n' :: tail) iprior hidec hinl
    rw [h, inputSent_finish_blank _ _ _ _ ht.1 ht.2]
  · obtain ⟨fuel, h⟩ := inputSent_extract_lines ilines inodes t iprior hidec hinl
    rw [h, inputSent_finish_eof _ _ _ ht.1 ht.2]
  · intro last lastnode hlast hne hnl
    obtain ⟨fuel, h⟩ := inputSent_extract_lines ilines inodes last iprior hidec hinl
    rw [h, inputSent_finish_last _ _ _ _ hlast hne hnl]
    rfl

/-- Witness for C14: the output stream of one token line, an empty line and
the start of a next sentence; the input stream of one token line, a line of
two blanks and further text. -/
theorem sentence_aggregation_witness :
    CCoNLLOutput.extract
        (IStream.ofStr (textOfLines ["2\tdog\tdog\tNN\tNN\t_\t1\tNMOD\t_\t_".toList]
          ++ '\n' :: "1\tnext".toList)) []
      = .ok ({ buf := "1\tnext".toList, eof := false, fail := false },
          CCoNLLOutput.root ::
            [{ id := 2, word := "dog".toList, «lemma» := "dog".toList, ctag := "NN".toList,
               tag := "NN".toList, feats := "_".toList, head := 1, label := "NMOD".toList,
               phead := DEPENDENCY_LINK_NO_HEAD, plabel := "_".toList }])
    ∧ CCoNLLInput.extract
        (IStream.ofStr (textOfLines ["1\tThe\tthe\tDT\tDT\t_".toList]
          ++ ("  ".toList ++ '\n' :: "1\tnext".toList))) []
      = .ok ({ buf := "1\tnext".toList, eof := false, fail := false },
          CCoNLLInput.root ::
            [{ id := 1, word := "The".toList, «lemma» := "the".toList, ctag := "DT".toList,
               tag := "DT".toList, feats := "_".toList }]) :=
  have h := sentence_aggregation
    ["2\tdog\tdog\tNN\tNN\t_\t1\tNMOD\t_\t_".toList]
    [{ id := 2, word := "dog".toList, «lemma» := "dog".toList, ctag := "NN".toList,
       tag := "NN".toList, feats := "_".toList, head := 1, label := "NMOD".toList,
       phead := DEPENDENCY_LINK_NO_HEAD, plabel := "_".toList }]
    ["1\tThe\tthe\tDT\tDT\t_".toList]
    [{ id := 1, word := "The".toList, «lemma» := "the".toList, ctag := "DT".toList,
       tag := "DT".toList, feats := "_".toList }]
    "  ".toList "1\tnext".toList [] []
    (List.Forall₂.cons ⟨_, rfl⟩ List.Forall₂.nil) (by decide)
    (List.Forall₂.cons ⟨_, rfl⟩ List.Forall₂.nil) (by decide) (by decide)
  ⟨h.1, h.2.2.2.1⟩

/-- C16. Reset on parse: for every stream and every two initial contents of
the container, a read yields the same outcome, so the result depends on the
stream alone and nothing of the prior content survives; and after a
successful read element 0 is the root placeholder. -/
theorem reset_on_parse (is : IStream) (c1 c2 : CCoNLLOutput) (d1 d2 : CCoNLLInput) :
    CCoNLLOutput.extract is c1 = CCoNLLOutput.extract is c2
    ∧ CCoNLLInput.extract is d1 = CCoNLLInput.extract is d2
    ∧ (∀ r, CCoNLLOutput.extract is c1 = .ok r →
        ∃ tokens, r.2 = CCoNLLOutput.root :: tokens)
    ∧ (∀ r, CCoNLLInput.extract is d1 = .ok r →
        ∃ tokens, r.2 = CCoNLLInput.root :: tokens) := by
  refine ⟨rfl, rfl, ?_, ?_⟩
  · intro r hr
    exact outputSent_extractLoop_prefix _ _ _ _ r hr
  · intro r hr
    exact inputSent_extractLoop_prefix _ _ _ _ r hr

/-- Witness for C16: a container that holds a token reads a one-line sentence
as the empty container does, and element 0 of the sentence read is the root
placeholder. -/
theorem reset_on_parse_witness :
    CCoNLLInput.extract (IStream.ofStr "1\tThe\tthe\tDT\tDT\t_\n\n1\tnext".toList)
        [CCoNLLInput.root,
          { id := 9, word := "old".toList, «lemma» := "old".toList, ctag := "JJ".toList,
            tag := "JJ".toList, feats := "_".toList }]
      = CCoNLLInput.extract (IStream.ofStr "1\tThe\tthe\tDT\tDT\t_\n\n1\tnext".toList) []
    ∧ ∃ tokens,
      (({ buf := "1\tnext".toList, eof := false, fail := false },
        CCoNLLInput.root ::
          [{ id := 1, word := "The".toList, «lemma» := "the".toList, ctag := "DT".toList,
             tag := "DT".toList, feats := "_".toList }]) : IStream × CCoNLLInput).2
        = CCoNLLInput.root :: tokens :=
  ⟨(reset_on_parse (IStream.ofStr "1\tThe\tthe\tDT\tDT\t_\n\n1\tnext".toList) [] []
      [CCoNLLInput.root,
        { id := 9, word := "old".toList, «lemma» := "old".toList, ctag := "JJ".toList,
          tag := "JJ".toList, feats := "_".toList }] []).2.1,
   (reset_on_parse (IStream.ofStr "1\tThe\tthe\tDT\tDT\t_\n\n1\tnext".toList) [] []
      [CCoNLLInput.root,
        { id := 9, word := "old".toList, «lemma» := "old".toList, ctag := "JJ".toList,
          tag := "JJ".toList, feats := "_".toList }] []).2.2.2 _ rfl⟩

/-- Counterexample to C17: the input reader succeeds on a stream of three
lines whose id columns are 2, 1 and 1; the ids of the sentence are 0, 2, 1, 1,
neither pairwise distinct nor non-decreasing. -/
theorem id_invariant_counterexample :
    ∃ is1 sent,
      CCoNLLInput.extract (IStream.ofStr
          "2\ta\ta\tN\tN\t_\n1\tb\tb\tN\tN\t_\n1\tc\tc\tN\tN\t_\n\n".toList) []
        = .ok (is1, sent)
      ∧ sent.map (fun n => n.id) = [0, 2, 1, 1]
      ∧ ¬ ([0, 2, 1, 1] : List Int).Nodup
      ∧ ¬ ([0, 2, 1, 1] : List Int).Pairwise (fun a b => a ≤ b) :=
  ⟨_, _, rfl, rfl, by decide, by decide⟩

/-- C17, amended. On a stream of lines that all decode, followed by the
terminator, the sentence reader succeeds and the ids of the sentence are 0,
for the root, followed by the integers read from the id columns of the lines,
in stream order; the reader does not check them, so they are pairwise distinct
and non-decreasing only when the id columns of the stream are. -/
theorem id_invariant (olines ilines : List Str) (t tail : Str)
    (oprior : CCoNLLOutput) (iprior : CCoNLLInput)
    (hodec : ∀ l ∈ olines, (∃ n, CCoNLLOutput.DecodesTo l n) ∧ '\n' ∉ l)
    (hidec : ∀ l ∈ ilines, (∃ n, CCoNLLInput.DecodesTo l n) ∧ lstrip l ≠ [] ∧ '\n' ∉ l)
    (ht : lstrip t = [] ∧ '\n' ∉ t) :
    (∃ is1 sent,
        CCoNLLOutput.extract (IStream.ofStr (textOfLines olines ++ '\n' :: tail)) oprior
          = .ok (is1, sent)
        ∧ sent.map (fun n => n.id) = 0 :: olines.map idOfLine)
    ∧ (∃ is1 sent,
        CCoNLLInput.extract (IStream.ofStr (textOfLines ilines ++ (t ++ '\n' :: tail))) iprior
          = .ok (is1, sent)
        ∧ sent.map (fun n => n.id) = 0 :: ilines.map idOfLine) := by
  constructor
  · obtain ⟨nodes, hn⟩ := outputSent_forall2_of_decodes olines (fun l hl => (hodec l hl).1)
    obtain ⟨fuel, h⟩ := outputSent_extract_lines olines nodes ('\n' :: tail) oprior hn
      (fun l hl => (hodec l hl).2)
    refine ⟨_, _, by rw [h, outputSent_finish_blank], ?_⟩
    rw [List.map_cons, outputSent_ids_of_forall2 _ _ hn]
    rfl
  · obtain ⟨nodes, hn⟩ := inputSent_forall2_of_decodes ilines (fun l hl => (hidec l hl).1)
    obtain ⟨fuel, h⟩ := inputSent_extract_lines ilines nodes (t ++ '\n' :: tail) iprior hn
      (fun l hl => (hidec l hl).2)
    refine ⟨_, _, by rw [h, inputSent_finish_blank _ _ _ _ ht.1 ht.2], ?_⟩
    rw [List.map_cons, inputSent_ids_of_forall2 _ _ hn]
    rfl

/-- Witness for C17, amended: the input stream whose id columns are 2 and 1. -/
theorem id_invariant_witness :
    ∃ is1 sent,
      CCoNLLInput.extract (IStream.ofStr
          (textOfLines ["2\ta\ta\tN\tN\t_".toList, "1\tb\tb\tN\tN\t_".toList]
            ++ ([] ++ '\n' :: []))) []
        = .ok (is1, sent)
      ∧ sent.map (fun n => n.id)
          = 0 :: ["2\ta\ta\tN\tN\t_".toList, "1\tb\tb\tN\tN\t_".toList].map idOfLine :=
  (id_invariant [] ["2\ta\ta\tN\tN\t_".toList, "1\tb\tb\tN\tN\t_".toList] [] [] [] []
    (by simp)
    (by
      intro l hl
      simp only [List.mem_cons, List.mem_singleton, List.not_mem_nil, or_false] at hl
      rcases hl with rfl | rfl
      · exact ⟨⟨_, _, rfl⟩, by decide, by decide⟩
      · exact ⟨⟨_, _, rfl⟩, by decide, by decide⟩)
    (by decide)).2

/-! ## Columns of a token line -/

/-- Counterexample to C15: the input decoder accepts a line of ten columns and
decodes the token of its first six, and the output decoder accepts a line of
eleven columns. -/
theorem exact_column_count_counterexample :
    ("2\tdog\tdog\tNN\tNN\t_\t1\tNMOD\t_\t_".toList.splitOn '\t').length = 10
    ∧ (∃ is1, CCoNLLInputNode.extract
          (IStream.ofStr "2\tdog\tdog\tNN\tNN\t_\t1\tNMOD\t_\t_".toList)
          CCoNLLInputNode.default
        = .ok (is1, { id := 2, word := "dog".toList, «lemma» := "dog".toList,
                      ctag := "NN".toList, tag := "NN".toList, feats := "_".toList }))
    ∧ ("2\tdog\tdog\tNN\tNN\t_\t1\tNMOD\t_\t_\textra".toList.splitOn '\t').length = 11
    ∧ (∃ is1 t, CCoNLLOutputNode.extract
          (IStream.ofStr "2\tdog\tdog\tNN\tNN\t_\t1\tNMOD\t_\t_\textra".toList)
          CCoNLLOutputNode.default = .ok (is1, t)
        ∧ t.plabel = "_".toList) :=
  ⟨by decide, ⟨_, rfl⟩, by decide, ⟨_, _, rfl, rfl⟩⟩

/-- C15, amended. The input token decoder accepts a line only if it splits on
the tab character into at least six fields, and the output token decoder only
if it splits into at least ten.  A line with more fields than the schema has,
the first six (ten) of them non-empty, is accepted: the token is decoded from
the first six (ten) fields and the further ones are left unread in the stream
of the line. -/
theorem column_count_at_least (line : Str) (istart : CCoNLLInputNode)
    (ostart : CCoNLLOutputNode) :
    ((∃ r, CCoNLLInputNode.extract (IStream.ofStr line) istart = .ok r) →
        6 ≤ (line.splitOn '\t').length)
    ∧ ((∃ r, CCoNLLOutputNode.extract (IStream.ofStr line) ostart = .ok r) →
        10 ≤ (line.splitOn '\t').length)
    ∧ (∀ (f0 f1 f2 f3 f4 f5 : Str) (extra : List Str),
        line.splitOn '\t' = f0 :: f1 :: f2 :: f3 :: f4 :: f5 :: extra →
        f0 ≠ [] → f1 ≠ [] → f2 ≠ [] → f3 ≠ [] → f4 ≠ [] → f5 ≠ [] →
        ∃ is1, CCoNLLInputNode.extract (IStream.ofStr line) istart
            = .ok (is1, { id := extractInt f0 istart.id, word := f1, «lemma» := f2,
                          ctag := f3, tag := f4, feats := f5 })
          ∧ is1.fields = extra)
    ∧ (∀ (f0 f1 f2 f3 f4 f5 f6 f7 f8 f9 : Str) (extra : List Str),
        line.splitOn '\t' = f0 :: f1 :: f2 :: f3 :: f4 :: f5 :: f6 :: f7 :: f8 :: f9 :: extra →
        f0 ≠ [] → f1 ≠ [] → f2 ≠ [] → f3 ≠ [] → f4 ≠ [] → f5 ≠ [] → f6 ≠ [] → f7 ≠ [] →
        f8 ≠ [] → f9 ≠ [] →
        ∃ is1, CCoNLLOutputNode.extract (IStream.ofStr line) ostart
            = .ok (is1, { id := extractInt f0 ostart.id, word := f1, «lemma» := f2,
                          ctag := f3, tag := f4, feats := f5,
                          head := extractInt f6 ostart.head, label := f7,
                          phead := if f8 = ['_'] then DEPENDENCY_LINK_NO_HEAD
                                   else extractInt f8 ostart.phead,
                          plabel := f9 })
          ∧ is1.fields = extra) := by
  refine ⟨?_, ?_, ?_, ?_⟩
  · intro h
    exact ((inputNode_extract_ok_iff line istart).1 h).1
  · intro h
    exact ((outputNode_extract_ok_iff line ostart).1 h).1
  · intro f0 f1 f2 f3 f4 f5 extra hs h0 h1 h2 h3 h4 h5
    exact inputNode_extract_ok _ istart _ _ _ _ _ _ _ (by rw [fields_ofStr, hs])
      h0 h1 h2 h3 h4 h5
  · intro f0 f1 f2 f3 f4 f5 f6 f7 f8 f9 extra hs h0 h1 h2 h3 h4 h5 h6 h7 h8 h9
    exact outputNode_extract_ok _ ostart _ _ _ _ _ _ _ _ _ _ _ (by rw [fields_ofStr, hs])
      h0 h1 h2 h3 h4 h5 h6 h7 h8 h9

/-- Witness for C15, amended: the input decoder on a line of seven columns
decodes the first six and leaves the seventh pending. -/
theorem column_count_at_least_witness :
    ∃ is1, CCoNLLInputNode.extract (IStream.ofStr "1\tThe\tthe\tDT\tDT\t_\t2".toList)
          CCoNLLInputNode.default
        = .ok (is1, { id := extractInt "1".toList CCoNLLInputNode.default.id,
                      word := "The".toList, «lemma» := "the".toList, ctag := "DT".toList,
                      tag := "DT".toList, feats := "_".toList })
      ∧ is1.fields = ["2".toList] :=
  (column_count_at_least "1\tThe\tthe\tDT\tDT\t_\t2".toList CCoNLLInputNode.default
    CCoNLLOutputNode.default).2.2.1 _ _ _ _ _ _ _ (by decide) (by decide) (by decide)
    (by decide) (by decide) (by decide) (by decide)

/-- C18. Shared prefix: whenever the output token decoder succeeds on a line
with token `t`, the input token decoder, started on the same line with the
same initial id (as it is with default constructed nodes), succeeds as well
and yields exactly the id, word, lemma, ctag, tag and feats of `t`; and the
head, label, phead and plabel of `t` are decoded from columns seven to ten of
the line, in that order. -/
theorem shared_prefix_decoding (line : Str) (ostart : CCoNLLOutputNode) (is1 : IStream)
    (t : CCoNLLOutputNode)
    (h : CCoNLLOutputNode.extract (IStream.ofStr line) ostart = .ok (is1, t)) :
    (∃ is2, CCoNLLInputNode.extract (IStream.ofStr line) ostart.toCCoNLLInputNode
        = .ok (is2, t.toCCoNLLInputNode))
    ∧ CCoNLLOutputNode.default.toCCoNLLInputNode = CCoNLLInputNode.default
    ∧ ∃ (f0 f1 f2 f3 f4 f5 f6 f7 f8 f9 : Str) (extra : List Str),
        line.splitOn '\t' = f0 :: f1 :: f2 :: f3 :: f4 :: f5 :: f6 :: f7 :: f8 :: f9 :: extra
        ∧ t.head = extractInt f6 ostart.head
        ∧ t.label = f7
        ∧ t.phead = (if f8 = ['_'] then DEPENDENCY_LINK_NO_HEAD
                     else extractInt f8 ostart.phead)
        ∧ t.plabel = f9 := by
  obtain ⟨f0, f1, f2, f3, f4, f5, f6, f7, f8, f9, rest, hF, h0, h1, h2, h3, h4, h5, h6, h7, h8,
    h9⟩ := outputNode_extract_inv _ _ _ h
  obtain ⟨is3, hok, -⟩ := outputNode_extract_ok _ ostart _ _ _ _ _ _ _ _ _ _ _ hF
    h0 h1 h2 h3 h4 h5 h6 h7 h8 h9
  obtain ⟨is2, hin, -⟩ := inputNode_extract_ok _ ostart.toCCoNLLInputNode _ _ _ _ _ _ _ hF
    h0 h1 h2 h3 h4 h5
  rw [hok] at h
  simp only [Except.ok.injEq, Prod.mk.injEq] at h
  obtain ⟨-, ht⟩ := h
  subst ht
  rw [fields_ofStr] at hF
  exact ⟨⟨is2, hin⟩, rfl, f0, f1, f2, f3, f4, f5, f6, f7, f8, f9, rest, hF, rfl, rfl, rfl, rfl⟩

/-- Witness for C18: the line `2 dog dog NN NN _ 1 NMOD _ _`. -/
theorem shared_prefix_decoding_witness :
    ∃ is2, CCoNLLInputNode.extract
          (IStream.ofStr "2\tdog\tdog\tNN\tNN\t_\t1\tNMOD\t_\t_".toList)
          CCoNLLOutputNode.default.toCCoNLLInputNode
        = .ok (is2, { id := 2, word := "dog".toList, «lemma» := "dog".toList,
                      ctag := "NN".toList, tag := "NN".toList, feats := "_".toList }) :=
  (shared_prefix_decoding "2\tdog\tdog\tNN\tNN\t_\t1\tNMOD\t_\t_".toList
    CCoNLLOutputNode.default { buf := [], eof := true, fail := false }
    { id := 2, word := "dog".toList, «lemma» := "dog".toList, ctag := "NN".toList,
      tag := "NN".toList, feats := "_".toList, head := 1, label := "NMOD".toList,
      phead := DEPENDENCY_LINK_NO_HEAD, plabel := "_".toList } rfl).1

end CoNLL
